import Mathlib

/-!
Verification of the mini-rust recursive-descent parser
(src/src/parse.rs and src/src/parse/parse_expr.rs).

The parser is embedded shallowly: the token stream becomes a `List Token`,
the parser's mutable state (lexer position and node-id counter) becomes an
explicit `Parser` record threaded through every rule, and the mutual
recursion is made total with an explicit fuel argument.  The three-valued
result type `Option (Option (a × Parser))` distinguishes running out of
fuel (`none`, which never happens for sufficient fuel, proved below) from
the Rust `None` parse failure (`some none`) and success (`some (some _)`).

The lexer, the AST declarations, the node-id allocator `get_next_id` and
the block collaborator `parse_block` are not part of the given sources;
they are modelled from the spec where indicated.
-/

namespace MiniRust

/-- Operator sub-kinds carried by operator tokens (lexer::BinOp in the source:
Plus, Minus, Star, Eq for "==", Ne, Lt, Gt). -/
inductive LexBinOp where
  | Plus
  | Minus
  | Star
  | Eq
  | Ne
  | Lt
  | Gt
deriving DecidableEq, Repr

/-- Token kinds, as enumerated in spec section 6: number literal, boolean
keywords, identifier with text, parentheses, braces, comma, "=", operator
tokens, keywords if/else/return, and the explicit end-of-stream marker. -/
inductive TokenKind where
  | NumLit (n : Nat)
  | Ident (symbol : String)
  | OpenParen
  | CloseParen
  | OpenBrace
  | CloseBrace
  | Comma
  | Eq
  | BinOp (op : LexBinOp)
  | If
  | Else
  | Return
  | True
  | False
  | Eof
deriving DecidableEq, Repr

/-- A token; the parser only ever inspects its kind, so the span carried by
the source's Token is omitted. -/
structure Token where
  kind : TokenKind
deriving DecidableEq, Repr

/-- Binary AST operators (ast::BinOp). -/
inductive BinOp where
  | Add
  | Sub
  | Mul
  | Eq
  | Ne
  | Lt
  | Gt
deriving DecidableEq, Repr

/-- Unary AST operators (ast::UnOp). -/
inductive UnOp where
  | Plus
  | Minus
deriving DecidableEq, Repr

/-- An identifier (ast::Ident), a textual symbol. -/
structure Ident where
  symbol : String
deriving DecidableEq, Repr

mutual
/-- AST node (ast::Expr): a kind plus the node id assigned at construction. -/
inductive Expr where
  | mk (kind : ExprKind) (id : Nat)

/-- AST node kinds (ast::ExprKind), as listed in spec section 3. -/
inductive ExprKind where
  | NumLit (n : Nat)
  | BoolLit (b : Bool)
  | Ident (ident : Ident)
  | Unary (op : UnOp) (e : Expr)
  | Binary (op : BinOp) (lhs rhs : Expr)
  | Assign (lhs rhs : Expr)
  | Call (callee : Ident) (args : List Expr)
  | If (cond : Expr) (then_branch : Expr) (else_branch : Option Expr)
  | Block (exprs : List Expr)
  | Return (e : Expr)
end

/-- The kind of an expression node. -/
def Expr.kind : Expr → ExprKind
  | .mk k _ => k

/-- The node id of an expression node. -/
def Expr.id : Expr → Nat
  | .mk _ i => i

/-- Parser state: the not-yet-consumed suffix of the token stream (the Lexer
owned by the source's Parser struct) together with the node-id counter.
The counter is modelled from the spec (section 4.2), since the allocator's
code is not among the given sources. -/
structure Parser where
  toks : List Token
  next_id : Nat
deriving Repr

/-- Embeds Parser::peek_token (src/src/parse.rs lines 13-15): one-token
lookahead without consuming. -/
def peek_token (p : Parser) : Option Token :=
  p.toks.head?

/-- Embeds Parser::skip_token (src/src/parse.rs lines 17-19): consume and
return the next token. -/
def skip_token (p : Parser) : Option Token × Parser :=
  match p.toks with
  | [] => (none, p)
  | t :: ts => (some t, { p with toks := ts })

/-- Embeds Parser::skip_expected_token (src/src/parse.rs lines 22-30): skip
the next token only when it has the expected kind, reporting whether it did. -/
def skip_expected_token (kind : TokenKind) (p : Parser) : Bool × Parser :=
  match p.toks with
  | t :: ts => if t.kind = kind then (true, { p with toks := ts }) else (false, p)
  | [] => (false, p)

/-- Embeds Parser::at_eof (src/src/parse.rs lines 32-40): whether the next
token is the end-of-stream marker. -/
def at_eof (p : Parser) : Bool :=
  match peek_token p with
  | some t => t.kind = TokenKind.Eof
  | none => false

/-- Modelled from the spec (section 4.2, Node-Id Allocator; the allocator's
code is not among the given sources): a single counter, initialized to zero
at parser construction, incremented and returned on each call. -/
def get_next_id (p : Parser) : Nat × Parser :=
  (p.next_id + 1, { p with next_id := p.next_id + 1 })

/-- Embeds is_expr_start (src/src/parse/parse_expr.rs lines 7-20): whether a
token can begin an expression. -/
def is_expr_start (t : Token) : Bool :=
  match t.kind with
  | .NumLit _ => true
  | .Ident _ => true
  | .OpenParen => true
  | .OpenBrace => true
  | .BinOp .Plus => true
  | .BinOp .Minus => true
  | .Return => true
  | .True => true
  | .False => true
  | .If => true
  | _ => false

/-- Three-valued parse result: `none` means the fuel ran out, `some none` is
the Rust `None` (parse failure), `some (some (x, p))` is success with the
updated parser state. -/
abbrev PResult (α : Type) : Type :=
  Option (Option (α × Parser))

mutual

/-- Embeds parse_expr (src/src/parse/parse_expr.rs lines 24-38):
expr ::= "return" expr | assign | ifExpr. -/
def parse_expr : Nat → Parser → PResult Expr
  | 0, _ => none
  | fuel + 1, p =>
    match peek_token p with
    | none => some none
    | some t =>
      match t.kind with
      | .If => parse_if_expr fuel p
      | .Return =>
        match parse_expr fuel (skip_token p).2 with
        | none => none
        | some none => some none
        | some (some (e, p)) =>
          match get_next_id p with
          | (i, p) => some (some (.mk (.Return e) i, p))
      | _ => parse_assign fuel p

/-- Embeds parse_if_expr (src/src/parse/parse_expr.rs lines 41-78):
ifExpr ::= "if" expr block ("else" (block | ifExpr))?.  The source first
computes the optional else branch and only then allocates the id of the
then-branch Block wrapper and, last of all, the id of the If node itself;
the three success continuations below inline that shared tail. -/
def parse_if_expr : Nat → Parser → PResult Expr
  | 0, _ => none
  | fuel + 1, p =>
    match skip_expected_token .If p with
    | (false, _) => some none
    | (true, p) =>
      match parse_expr fuel p with
      | none => none
      | some none => some none
      | some (some (cond, p)) =>
        match parse_block fuel p with
        | none => none
        | some none => some none
        | some (some (then_block, p)) =>
          match peek_token p with
          | none => some none
          | some t =>
            if t.kind = TokenKind.Else then
              match peek_token (skip_token p).2 with
              | none => some none
              | some t2 =>
                if t2.kind = TokenKind.If then
                  match parse_if_expr fuel (skip_token p).2 with
                  | none => none
                  | some none => some none
                  | some (some (e, p)) =>
                    match get_next_id p with
                    | (then_id, p) =>
                      match get_next_id p with
                      | (if_id, p) =>
                        some (some (.mk (.If cond (.mk (.Block then_block) then_id) (some e)) if_id, p))
                else
                  match parse_block fuel (skip_token p).2 with
                  | none => none
                  | some none => some none
                  | some (some (blk, p)) =>
                    match get_next_id p with
                    | (i, p) =>
                      match get_next_id p with
                      | (then_id, p) =>
                        match get_next_id p with
                        | (if_id, p) =>
                          some (some (.mk (.If cond (.mk (.Block then_block) then_id) (some (.mk (.Block blk) i))) if_id, p))
            else
              match get_next_id p with
              | (then_id, p) =>
                match get_next_id p with
                | (if_id, p) =>
                  some (some (.mk (.If cond (.mk (.Block then_block) then_id) none) if_id, p))

/-- Embeds parse_assign (src/src/parse/parse_expr.rs lines 81-93):
assign ::= equality ("=" assign)?. -/
def parse_assign : Nat → Parser → PResult Expr
  | 0, _ => none
  | fuel + 1, p =>
    match parse_binary_equality fuel p with
    | none => none
    | some none => some none
    | some (some (lhs, p)) =>
      match peek_token p with
      | none => some none
      | some t =>
        if t.kind ≠ TokenKind.Eq then
          some (some (lhs, p))
        else
          match parse_assign fuel (skip_token p).2 with
          | none => none
          | some none => some none
          | some (some (rhs, p)) =>
            match get_next_id p with
            | (i, p) => some (some (.mk (.Assign lhs rhs) i, p))

/-- Embeds parse_binary_equality (src/src/parse/parse_expr.rs lines 96-114):
equality ::= relational (("=="|"!=") equality)?; the source's binop
computation followed by a shared continuation is inlined per operator. -/
def parse_binary_equality : Nat → Parser → PResult Expr
  | 0, _ => none
  | fuel + 1, p =>
    match parse_binary_relational fuel p with
    | none => none
    | some none => some none
    | some (some (lhs, p)) =>
      match peek_token p with
      | none => some none
      | some t =>
        match t.kind with
        | .BinOp .Eq =>
          match parse_binary_equality fuel (skip_token p).2 with
          | none => none
          | some none => some none
          | some (some (rhs, p)) =>
            match get_next_id p with
            | (i, p) => some (some (.mk (.Binary .Eq lhs rhs) i, p))
        | .BinOp .Ne =>
          match parse_binary_equality fuel (skip_token p).2 with
          | none => none
          | some none => some none
          | some (some (rhs, p)) =>
            match get_next_id p with
            | (i, p) => some (some (.mk (.Binary .Ne lhs rhs) i, p))
        | _ => some (some (lhs, p))

/-- Embeds parse_binary_relational (src/src/parse/parse_expr.rs lines
117-135): relational ::= add (("<"|">") relational)?. -/
def parse_binary_relational : Nat → Parser → PResult Expr
  | 0, _ => none
  | fuel + 1, p =>
    match parse_binary_add fuel p with
    | none => none
    | some none => some none
    | some (some (lhs, p)) =>
      match peek_token p with
      | none => some none
      | some t =>
        match t.kind with
        | .BinOp .Lt =>
          match parse_binary_relational fuel (skip_token p).2 with
          | none => none
          | some none => some none
          | some (some (rhs, p)) =>
            match get_next_id p with
            | (i, p) => some (some (.mk (.Binary .Lt lhs rhs) i, p))
        | .BinOp .Gt =>
          match parse_binary_relational fuel (skip_token p).2 with
          | none => none
          | some none => some none
          | some (some (rhs, p)) =>
            match get_next_id p with
            | (i, p) => some (some (.mk (.Binary .Gt lhs rhs) i, p))
        | _ => some (some (lhs, p))

/-- Embeds parse_binary_add (src/src/parse/parse_expr.rs lines 138-156):
add ::= mul (("+"|"-") add)?. -/
def parse_binary_add : Nat → Parser → PResult Expr
  | 0, _ => none
  | fuel + 1, p =>
    match parse_binary_mul fuel p with
    | none => none
    | some none => some none
    | some (some (lhs, p)) =>
      match peek_token p with
      | none => some none
      | some t =>
        match t.kind with
        | .BinOp .Plus =>
          match parse_binary_add fuel (skip_token p).2 with
          | none => none
          | some none => some none
          | some (some (rhs, p)) =>
            match get_next_id p with
            | (i, p) => some (some (.mk (.Binary .Add lhs rhs) i, p))
        | .BinOp .Minus =>
          match parse_binary_add fuel (skip_token p).2 with
          | none => none
          | some none => some none
          | some (some (rhs, p)) =>
            match get_next_id p with
            | (i, p) => some (some (.mk (.Binary .Sub lhs rhs) i, p))
        | _ => some (some (lhs, p))

/-- Embeds parse_binary_mul (src/src/parse/parse_expr.rs lines 159-176):
mul ::= unary ("*" mul)?. -/
def parse_binary_mul : Nat → Parser → PResult Expr
  | 0, _ => none
  | fuel + 1, p =>
    match parse_binary_unary fuel p with
    | none => none
    | some none => some none
    | some (some (lhs, p)) =>
      match peek_token p with
      | none => some none
      | some t =>
        match t.kind with
        | .BinOp .Star =>
          match parse_binary_mul fuel (skip_token p).2 with
          | none => none
          | some none => some none
          | some (some (rhs, p)) =>
            match get_next_id p with
            | (i, p) => some (some (.mk (.Binary .Mul lhs rhs) i, p))
        | _ => some (some (lhs, p))

/-- Embeds parse_binary_unary (src/src/parse/parse_expr.rs lines 179-196):
unary ::= ("+"|"-")? primary; with no prefix operator it is transparent and
forwards primary's result without allocating an id. -/
def parse_binary_unary : Nat → Parser → PResult Expr
  | 0, _ => none
  | fuel + 1, p =>
    match peek_token p with
    | none => some none
    | some t =>
      match t.kind with
      | .BinOp .Plus =>
        match parse_binary_primary fuel (skip_token p).2 with
        | none => none
        | some none => some none
        | some (some (prim, p)) =>
          match get_next_id p with
          | (i, p) => some (some (.mk (.Unary .Plus prim) i, p))
      | .BinOp .Minus =>
        match parse_binary_primary fuel (skip_token p).2 with
        | none => none
        | some none => some none
        | some (some (prim, p)) =>
          match get_next_id p with
          | (i, p) => some (some (.mk (.Unary .Minus prim) i, p))
      | _ => parse_binary_primary fuel p

/-- Embeds parse_binary_primary (src/src/parse/parse_expr.rs lines 199-255):
primary ::= num | true | false | ident callTail? | "(" expr ")" | block. -/
def parse_binary_primary : Nat → Parser → PResult Expr
  | 0, _ => none
  | fuel + 1, p =>
    match peek_token p with
    | none => some none
    | some t =>
      match t.kind with
      | .NumLit n =>
        match get_next_id (skip_token p).2 with
        | (i, p) => some (some (.mk (.NumLit n) i, p))
      | .True =>
        match get_next_id (skip_token p).2 with
        | (i, p) => some (some (.mk (.BoolLit true) i, p))
      | .False =>
        match get_next_id (skip_token p).2 with
        | (i, p) => some (some (.mk (.BoolLit false) i, p))
      | .Ident symbol =>
        match peek_token (skip_token p).2 with
        | none => some none
        | some t2 =>
          if t2.kind = TokenKind.OpenParen then
            parse_call_expr fuel symbol (skip_token p).2
          else
            match get_next_id (skip_token p).2 with
            | (i, p2) => some (some (.mk (.Ident ⟨symbol⟩) i, p2))
      | .OpenParen =>
        match parse_expr fuel (skip_token p).2 with
        | none => none
        | some none => some none
        | some (some (e, p)) =>
          match skip_expected_token .CloseParen p with
          | (false, _) => some none
          | (true, p) => some (some (e, p))
      | .OpenBrace =>
        match parse_block fuel p with
        | none => none
        | some none => some none
        | some (some (blk, p)) =>
          match get_next_id p with
          | (i, p) => some (some (.mk (.Block blk) i, p))
      | _ => some none

/-- Embeds parse_call_expr (src/src/parse/parse_expr.rs lines 259-272):
callExpr ::= ident "(" callParams? ")" with the identifier already consumed.
Note the result of skip_expected_token for the closing parenthesis is
discarded, exactly as in the source (line 267). -/
def parse_call_expr : Nat → String → Parser → PResult Expr
  | 0, _, _ => none
  | fuel + 1, ident_sym, p =>
    match peek_token (skip_token p).2 with
    | none => some none
    | some t =>
      if t.kind = TokenKind.CloseParen then
        match get_next_id (skip_expected_token .CloseParen (skip_token p).2).2 with
        | (i, p) => some (some (.mk (.Call ⟨ident_sym⟩ []) i, p))
      else
        match parse_call_params fuel (skip_token p).2 with
        | none => none
        | some none => some none
        | some (some (args, p)) =>
          match get_next_id (skip_expected_token .CloseParen p).2 with
          | (i, p) => some (some (.mk (.Call ⟨ident_sym⟩ args) i, p))

/-- Embeds parse_call_params (src/src/parse/parse_expr.rs lines 276-287)
up to its while loop, which becomes parse_call_params_loop. -/
def parse_call_params : Nat → Parser → PResult (List Expr)
  | 0, _ => none
  | fuel + 1, p =>
    match parse_expr fuel p with
    | none => none
    | some none => some none
    | some (some (e, p)) => parse_call_params_loop fuel [e] p

/-- Embeds the while loop of parse_call_params (src/src/parse/parse_expr.rs
lines 280-285): while the next token is a comma, skip it and parse another
expression only if one actually starts. -/
def parse_call_params_loop : Nat → List Expr → Parser → PResult (List Expr)
  | 0, _, _ => none
  | fuel + 1, args, p =>
    match peek_token p with
    | none => some none
    | some t =>
      if t.kind = TokenKind.Comma then
        match peek_token (skip_token p).2 with
        | none => some none
        | some t2 =>
          if is_expr_start t2 then
            match parse_expr fuel (skip_token p).2 with
            | none => none
            | some none => some none
            | some (some (e, p)) => parse_call_params_loop fuel (args ++ [e]) p
          else
            parse_call_params_loop fuel args (skip_token p).2
      else
        some (some (args, p))

/-- Modelled from the spec (section 6, Block collaborator; its code is not
among the given sources): parse_block consumes a brace-delimited region and
returns its constituent expressions in source order, failing like every
other rule when the braces are missing. -/
def parse_block : Nat → Parser → PResult (List Expr)
  | 0, _ => none
  | fuel + 1, p =>
    match skip_expected_token .OpenBrace p with
    | (false, _) => some none
    | (true, p) => parse_block_loop fuel [] p

/-- Modelled from the spec (section 6): the body loop of parse_block, reading
expressions while one starts, then requiring the closing brace. -/
def parse_block_loop : Nat → List Expr → Parser → PResult (List Expr)
  | 0, _, _ => none
  | fuel + 1, acc, p =>
    match peek_token p with
    | none => some none
    | some t =>
      if is_expr_start t then
        match parse_expr fuel p with
        | none => none
        | some none => some none
        | some (some (e, p)) => parse_block_loop fuel (acc ++ [e]) p
      else
        match skip_expected_token .CloseBrace p with
        | (false, _) => some none
        | (true, p) => some (some (acc, p))

end

/-- The id-erased shape of an AST node, used to state expected parse trees
the way the spec writes them, without node ids. -/
inductive Shape where
  | NumLit (n : Nat)
  | BoolLit (b : Bool)
  | Ident (symbol : String)
  | Unary (op : UnOp) (e : Shape)
  | Binary (op : BinOp) (lhs rhs : Shape)
  | Assign (lhs rhs : Shape)
  | Call (callee : String) (args : List Shape)
  | If (cond : Shape) (then_branch : Shape) (else_branch : Option Shape)
  | Block (exprs : List Shape)
  | Return (e : Shape)
deriving Repr

mutual

/-- Erase the node ids of an expression. -/
def Expr.shape : Expr → Shape
  | .mk k _ => ExprKind.shape k

/-- Erase the node ids below an expression kind. -/
def ExprKind.shape : ExprKind → Shape
  | .NumLit n => .NumLit n
  | .BoolLit b => .BoolLit b
  | .Ident i => .Ident i.symbol
  | .Unary op e => .Unary op e.shape
  | .Binary op a b => .Binary op a.shape b.shape
  | .Assign a b => .Assign a.shape b.shape
  | .Call c args => .Call c.symbol (shapeList args)
  | .If c t e => .If c.shape t.shape (shapeOpt e)
  | .Block es => .Block (shapeList es)
  | .Return e => .Return e.shape

/-- Erase the node ids of a list of expressions. -/
def shapeList : List Expr → List Shape
  | [] => []
  | e :: es => e.shape :: shapeList es

/-- Erase the node ids of an optional expression. -/
def shapeOpt : Option Expr → Option Shape
  | none => none
  | some e => some e.shape

end

mutual

/-- All node ids of an expression, root first. -/
def idsOf : Expr → List Nat
  | .mk k i => i :: idsOfKind k

/-- All node ids below an expression kind. -/
def idsOfKind : ExprKind → List Nat
  | .NumLit _ => []
  | .BoolLit _ => []
  | .Ident _ => []
  | .Unary _ e => idsOf e
  | .Binary _ a b => idsOf a ++ idsOf b
  | .Assign a b => idsOf a ++ idsOf b
  | .Call _ args => idsOfList args
  | .If c t e => idsOf c ++ idsOf t ++ idsOfOpt e
  | .Block es => idsOfList es
  | .Return e => idsOf e

/-- All node ids of a list of expressions. -/
def idsOfList : List Expr → List Nat
  | [] => []
  | e :: es => idsOf e ++ idsOfList es

/-- All node ids of an optional expression. -/
def idsOfOpt : Option Expr → List Nat
  | none => []
  | some e => idsOf e

end

/-- Embeds parse_crate (src/src/parse.rs lines 42-48): parse an expression,
then require the end-of-stream marker; otherwise return the Rust None. -/
def parse_crate_fueled (fuel : Nat) (p : Parser) : Option (Option Expr) :=
  match parse_expr fuel p with
  | none => none
  | some none => some none
  | some (some (e, p)) => if at_eof p then some (some e) else some none

/-- Fuel sufficient for a token list of the given length (proved below:
the parser never runs out of this much fuel). -/
def parse_fuel (ts : List Token) : Nat :=
  10 * ts.length + 10

/-- The parser entry point on a token stream: parse_crate on a fresh Parser
with the node-id counter at zero. -/
def parse_crate (ts : List Token) : Option Expr :=
  (parse_crate_fueled (parse_fuel ts) ⟨ts, 0⟩).getD none

/-- The id-erased tree returned by the entry point, for stating the spec's
expected-output examples. -/
def parse_crate_shape (ts : List Token) : Option Shape :=
  (parse_crate ts).map Expr.shape

/-- Build a token from a kind (notation helper for concrete streams). -/
def tk (k : TokenKind) : Token :=
  ⟨k⟩

/-- StepsTo p q: q's tokens are a suffix of p's and the counter did not go down. -/
def StepsTo (p q : Parser) : Prop :=
  q.toks <:+ p.toks ∧ p.next_id ≤ q.next_id

/-- ShrinksTo p q: as StepsTo, with at least one token consumed. -/
def ShrinksTo (p q : Parser) : Prop :=
  q.toks <:+ p.toks ∧ q.toks.length < p.toks.length ∧ p.next_id ≤ q.next_id

theorem StepsTo.refl (p : Parser) : StepsTo p p :=
  ⟨List.suffix_refl _, le_refl _⟩

theorem ShrinksTo.steps {p q : Parser} (h : ShrinksTo p q) : StepsTo p q :=
  ⟨h.1, h.2.2⟩

theorem StepsTo.trans {p q r : Parser} (h1 : StepsTo p q) (h2 : StepsTo q r) : StepsTo p r :=
  ⟨h2.1.trans h1.1, h1.2.trans h2.2⟩

theorem ShrinksTo.trans_steps {p q r : Parser} (h1 : ShrinksTo p q) (h2 : StepsTo q r) :
    ShrinksTo p r :=
  ⟨h2.1.trans h1.1, lt_of_le_of_lt h2.1.length_le h1.2.1, h1.2.2.trans h2.2⟩

theorem StepsTo.comp_shrinks {p q r : Parser} (h1 : StepsTo p q) (h2 : ShrinksTo q r) :
    ShrinksTo p r :=
  ⟨h2.1.trans h1.1, lt_of_lt_of_le h2.2.1 h1.1.length_le, h1.2.trans h2.2.2⟩

theorem ShrinksTo.trans_shrinks {p q r : Parser} (h1 : ShrinksTo p q) (h2 : ShrinksTo q r) :
    ShrinksTo p r :=
  h1.steps.comp_shrinks h2

theorem peek_token_toks {p : Parser} {t : Token} (h : peek_token p = some t) :
    p.toks = t :: p.toks.tail := by
  cases hp : p.toks with
  | nil => simp [peek_token, hp] at h
  | cons a l =>
    simp only [peek_token, hp, List.head?] at h
    cases h
    simp

theorem skip_token_toks (p : Parser) : (skip_token p).2.toks = p.toks.tail := by
  cases hp : p.toks <;> simp [skip_token, hp]

theorem skip_token_next_id (p : Parser) : (skip_token p).2.next_id = p.next_id := by
  cases hp : p.toks <;> simp [skip_token, hp]

theorem skip_token_shrinks {p : Parser} {t : Token} (h : peek_token p = some t) :
    ShrinksTo p (skip_token p).2 := by
  have hp := peek_token_toks h
  refine ⟨?_, ?_, ?_⟩
  · rw [skip_token_toks, hp, List.tail_cons]
    exact List.suffix_cons t p.toks.tail
  · rw [skip_token_toks, hp]
    simp
  · rw [skip_token_next_id]

theorem skip_expected_token_eq_true {k : TokenKind} {p q : Parser}
    (h : skip_expected_token k p = (true, q)) :
    p.toks = tk k :: q.toks ∧ q.next_id = p.next_id := by
  cases hp : p.toks with
  | nil => simp [skip_expected_token, hp] at h
  | cons a l =>
    simp only [skip_expected_token, hp] at h
    by_cases hk : a.kind = k
    · rw [if_pos hk] at h
      simp only [Prod.mk.injEq, true_and] at h
      have ha : a = tk k := by cases a; cases hk; rfl
      subst h
      exact ⟨by rw [ha], rfl⟩
    · simp [hk] at h

theorem skip_expected_token_shrinks {k : TokenKind} {p q : Parser}
    (h : skip_expected_token k p = (true, q)) : ShrinksTo p q := by
  obtain ⟨hts, hid⟩ := skip_expected_token_eq_true h
  exact ⟨hts ▸ List.suffix_cons _ _, by rw [hts]; simp, le_of_eq hid.symm⟩

theorem skip_expected_token_steps (k : TokenKind) (p : Parser) :
    StepsTo p (skip_expected_token k p).2 := by
  cases hp : p.toks with
  | nil => simp only [skip_expected_token, hp]; exact StepsTo.refl _
  | cons a l =>
    simp only [skip_expected_token, hp]
    by_cases hk : a.kind = k
    · rw [if_pos hk]
      refine ⟨?_, le_refl _⟩
      show l <:+ p.toks
      rw [hp]
      exact List.suffix_cons a l
    · rw [if_neg hk]
      exact StepsTo.refl _

theorem get_next_id_toks (p : Parser) : (get_next_id p).2.toks = p.toks := rfl

theorem get_next_id_steps (p : Parser) : StepsTo p (get_next_id p).2 :=
  ⟨List.suffix_refl _, Nat.le_succ _⟩

theorem skip_token_shrinks_of_peek {p : Parser} {t : Token}
    (h : peek_token (skip_token p).2 = some t) : ShrinksTo p (skip_token p).2 := by
  cases hp : p.toks with
  | nil =>
    rw [show (skip_token p).2 = p by rw [skip_token, hp]] at h
    simp [peek_token, hp] at h
  | cons a l =>
    exact skip_token_shrinks (t := a) (by rw [peek_token, hp]; rfl)

theorem get_next_id_eq_steps {p q : Parser} {i : Nat} (h : get_next_id p = (i, q)) :
    StepsTo p q := by
  have hs := get_next_id_steps p
  rw [h] at hs
  exact hs

/-- Progress invariant for every rule of the parser, by one induction on the
fuel: a successful parse leaves a suffix of the input tokens and never
decreases the id counter; every rule except the two loop bodies consumes at
least one token. -/
theorem progress_master : ∀ fuel : Nat,
    (∀ p e q, parse_expr fuel p = some (some (e, q)) → ShrinksTo p q)
  ∧ (∀ p e q, parse_if_expr fuel p = some (some (e, q)) → ShrinksTo p q)
  ∧ (∀ p e q, parse_assign fuel p = some (some (e, q)) → ShrinksTo p q)
  ∧ (∀ p e q, parse_binary_equality fuel p = some (some (e, q)) → ShrinksTo p q)
  ∧ (∀ p e q, parse_binary_relational fuel p = some (some (e, q)) → ShrinksTo p q)
  ∧ (∀ p e q, parse_binary_add fuel p = some (some (e, q)) → ShrinksTo p q)
  ∧ (∀ p e q, parse_binary_mul fuel p = some (some (e, q)) → ShrinksTo p q)
  ∧ (∀ p e q, parse_binary_unary fuel p = some (some (e, q)) → ShrinksTo p q)
  ∧ (∀ p e q, parse_binary_primary fuel p = some (some (e, q)) → ShrinksTo p q)
  ∧ (∀ s p e q, parse_call_expr fuel s p = some (some (e, q)) → ShrinksTo p q)
  ∧ (∀ p l q, parse_call_params fuel p = some (some (l, q)) → ShrinksTo p q)
  ∧ (∀ a p l q, parse_call_params_loop fuel a p = some (some (l, q)) → StepsTo p q)
  ∧ (∀ p l q, parse_block fuel p = some (some (l, q)) → ShrinksTo p q)
  ∧ (∀ a p l q, parse_block_loop fuel a p = some (some (l, q)) → StepsTo p q) := by
  intro fuel
  induction fuel with
  | zero =>
    refine ⟨?_, ?_, ?_, ?_, ?_, ?_, ?_, ?_, ?_, ?_, ?_, ?_, ?_, ?_⟩ <;>
      · intros
        rename_i h
        simp [parse_expr, parse_if_expr, parse_assign, parse_binary_equality,
          parse_binary_relational, parse_binary_add, parse_binary_mul,
          parse_binary_unary, parse_binary_primary, parse_call_expr,
          parse_call_params, parse_call_params_loop, parse_block,
          parse_block_loop] at h
  | succ fuel ih =>
    obtain ⟨ihe, ihif, ihas, iheq, ihrel, ihadd, ihmul, ihun, ihpr, ihce, ihcp,
      ihcpl, ihb, ihbl⟩ := ih
    refine ⟨?_, ?_, ?_, ?_, ?_, ?_, ?_, ?_, ?_, ?_, ?_, ?_, ?_, ?_⟩
    -- parse_expr
    · intro p e q h
      rw [parse_expr] at h
      split at h
      · simp at h
      · rename_i t hpeek
        split at h
        · exact ihif _ _ _ h
        · split at h
          · simp at h
          · simp at h
          · rename_i e1 p1 hrec
            split at h
            rename_i i p2 hgn
            simp only [Option.some.injEq, Prod.mk.injEq] at h
            obtain ⟨-, rfl⟩ := h
            exact ((skip_token_shrinks hpeek).trans_shrinks (ihe _ _ _ hrec)).trans_steps
              (get_next_id_eq_steps hgn)
        · exact ihas _ _ _ h
    -- parse_if_expr
    · intro p e q h
      rw [parse_if_expr] at h
      split at h
      · simp at h
      · rename_i p1 hskip
        split at h
        · simp at h
        · simp at h
        · rename_i cond p2 hcond
          split at h
          · simp at h
          · simp at h
          · rename_i blk p3 hblk
            split at h
            · simp at h
            · rename_i t hpeek
              have base : ShrinksTo p p3 :=
                ((skip_expected_token_shrinks hskip).trans_shrinks
                  (ihe _ _ _ hcond)).trans_shrinks (ihb _ _ _ hblk)
              split at h
              · rename_i hElse
                split at h
                · simp at h
                · rename_i t2 hpeek2
                  split at h
                  · split at h
                    · simp at h
                    · simp at h
                    · rename_i e2 p4 hrec
                      split at h
                      rename_i then_id p5 hg1
                      split at h
                      rename_i if_id p6 hg2
                      simp only [Option.some.injEq, Prod.mk.injEq] at h
                      obtain ⟨-, rfl⟩ := h
                      exact (((base.trans_shrinks (skip_token_shrinks hpeek)).trans_shrinks
                        (ihif _ _ _ hrec)).trans_steps (get_next_id_eq_steps hg1)).trans_steps
                        (get_next_id_eq_steps hg2)
                  · split at h
                    · simp at h
                    · simp at h
                    · rename_i blk2 p4 hrec
                      split at h
                      rename_i i p5 hg1
                      split at h
                      rename_i then_id p6 hg2
                      split at h
                      rename_i if_id p7 hg3
                      simp only [Option.some.injEq, Prod.mk.injEq] at h
                      obtain ⟨-, rfl⟩ := h
                      exact ((((base.trans_shrinks (skip_token_shrinks hpeek)).trans_shrinks
                        (ihb _ _ _ hrec)).trans_steps (get_next_id_eq_steps hg1)).trans_steps
                        (get_next_id_eq_steps hg2)).trans_steps (get_next_id_eq_steps hg3)
              · split at h
                rename_i then_id p4 hg1
                split at h
                rename_i if_id p5 hg2
                simp only [Option.some.injEq, Prod.mk.injEq] at h
                obtain ⟨-, rfl⟩ := h
                exact (base.trans_steps (get_next_id_eq_steps hg1)).trans_steps
                  (get_next_id_eq_steps hg2)
    -- parse_assign
    · intro p e q h
      rw [parse_assign] at h
      split at h
      · simp at h
      · simp at h
      · rename_i lhs p1 heq
        split at h
        · simp at h
        · rename_i t hpeek
          split at h
          · simp only [Option.some.injEq, Prod.mk.injEq] at h
            obtain ⟨-, rfl⟩ := h
            exact iheq _ _ _ heq
          · split at h
            · simp at h
            · simp at h
            · rename_i rhs p2 hrec
              split at h
              rename_i i p3 hgn
              simp only [Option.some.injEq, Prod.mk.injEq] at h
              obtain ⟨-, rfl⟩ := h
              exact (((iheq _ _ _ heq).trans_steps (skip_token_shrinks hpeek).steps).trans_shrinks
                (ihas _ _ _ hrec)).trans_steps (get_next_id_eq_steps hgn)
    -- parse_binary_equality
    · intro p e q h
      rw [parse_binary_equality] at h
      split at h
      · simp at h
      · simp at h
      · rename_i lhs p1 heq
        split at h
        · simp at h
        · rename_i t hpeek
          split at h
          · split at h
            · simp at h
            · simp at h
            · rename_i rhs p2 hrec
              split at h
              rename_i i p3 hgn
              simp only [Option.some.injEq, Prod.mk.injEq] at h
              obtain ⟨-, rfl⟩ := h
              exact (((ihrel _ _ _ heq).trans_steps (skip_token_shrinks hpeek).steps).trans_shrinks
                (iheq _ _ _ hrec)).trans_steps (get_next_id_eq_steps hgn)
          · split at h
            · simp at h
            · simp at h
            · rename_i rhs p2 hrec
              split at h
              rename_i i p3 hgn
              simp only [Option.some.injEq, Prod.mk.injEq] at h
              obtain ⟨-, rfl⟩ := h
              exact (((ihrel _ _ _ heq).trans_steps (skip_token_shrinks hpeek).steps).trans_shrinks
                (iheq _ _ _ hrec)).trans_steps (get_next_id_eq_steps hgn)
          · simp only [Option.some.injEq, Prod.mk.injEq] at h
            obtain ⟨-, rfl⟩ := h
            exact ihrel _ _ _ heq
    -- parse_binary_relational
    · intro p e q h
      rw [parse_binary_relational] at h
      split at h
      · simp at h
      · simp at h
      · rename_i lhs p1 heq
        split at h
        · simp at h
        · rename_i t hpeek
          split at h
          · split at h
            · simp at h
            · simp at h
            · rename_i rhs p2 hrec
              split at h
              rename_i i p3 hgn
              simp only [Option.some.injEq, Prod.mk.injEq] at h
              obtain ⟨-, rfl⟩ := h
              exact (((ihadd _ _ _ heq).trans_steps (skip_token_shrinks hpeek).steps).trans_shrinks
                (ihrel _ _ _ hrec)).trans_steps (get_next_id_eq_steps hgn)
          · split at h
            · simp at h
            · simp at h
            · rename_i rhs p2 hrec
              split at h
              rename_i i p3 hgn
              simp only [Option.some.injEq, Prod.mk.injEq] at h
              obtain ⟨-, rfl⟩ := h
              exact (((ihadd _ _ _ heq).trans_steps (skip_token_shrinks hpeek).steps).trans_shrinks
                (ihrel _ _ _ hrec)).trans_steps (get_next_id_eq_steps hgn)
          · simp only [Option.some.injEq, Prod.mk.injEq] at h
            obtain ⟨-, rfl⟩ := h
            exact ihadd _ _ _ heq
    -- parse_binary_add
    · intro p e q h
      rw [parse_binary_add] at h
      split at h
      · simp at h
      · simp at h
      · rename_i lhs p1 heq
        split at h
        · simp at h
        · rename_i t hpeek
          split at h
          · split at h
            · simp at h
            · simp at h
            · rename_i rhs p2 hrec
              split at h
              rename_i i p3 hgn
              simp only [Option.some.injEq, Prod.mk.injEq] at h
              obtain ⟨-, rfl⟩ := h
              exact (((ihmul _ _ _ heq).trans_steps (skip_token_shrinks hpeek).steps).trans_shrinks
                (ihadd _ _ _ hrec)).trans_steps (get_next_id_eq_steps hgn)
          · split at h
            · simp at h
            · simp at h
            · rename_i rhs p2 hrec
              split at h
              rename_i i p3 hgn
              simp only [Option.some.injEq, Prod.mk.injEq] at h
              obtain ⟨-, rfl⟩ := h
              exact (((ihmul _ _ _ heq).trans_steps (skip_token_shrinks hpeek).steps).trans_shrinks
                (ihadd _ _ _ hrec)).trans_steps (get_next_id_eq_steps hgn)
          · simp only [Option.some.injEq, Prod.mk.injEq] at h
            obtain ⟨-, rfl⟩ := h
            exact ihmul _ _ _ heq
    -- parse_binary_mul
    · intro p e q h
      rw [parse_binary_mul] at h
      split at h
      · simp at h
      · simp at h
      · rename_i lhs p1 heq
        split at h
        · simp at h
        · rename_i t hpeek
          split at h
          · split at h
            · simp at h
            · simp at h
            · rename_i rhs p2 hrec
              split at h
              rename_i i p3 hgn
              simp only [Option.some.injEq, Prod.mk.injEq] at h
              obtain ⟨-, rfl⟩ := h
              exact (((ihun _ _ _ heq).trans_steps (skip_token_shrinks hpeek).steps).trans_shrinks
                (ihmul _ _ _ hrec)).trans_steps (get_next_id_eq_steps hgn)
          · simp only [Option.some.injEq, Prod.mk.injEq] at h
            obtain ⟨-, rfl⟩ := h
            exact ihun _ _ _ heq
    -- parse_binary_unary
    · intro p e q h
      rw [parse_binary_unary] at h
      split at h
      · simp at h
      · rename_i t hpeek
        split at h
        · split at h
          · simp at h
          · simp at h
          · rename_i prim p1 hrec
            split at h
            rename_i i p2 hgn
            simp only [Option.some.injEq, Prod.mk.injEq] at h
            obtain ⟨-, rfl⟩ := h
            exact ((skip_token_shrinks hpeek).trans_shrinks (ihpr _ _ _ hrec)).trans_steps
              (get_next_id_eq_steps hgn)
        · split at h
          · simp at h
          · simp at h
          · rename_i prim p1 hrec
            split at h
            rename_i i p2 hgn
            simp only [Option.some.injEq, Prod.mk.injEq] at h
            obtain ⟨-, rfl⟩ := h
            exact ((skip_token_shrinks hpeek).trans_shrinks (ihpr _ _ _ hrec)).trans_steps
              (get_next_id_eq_steps hgn)
        · exact ihpr _ _ _ h
    -- parse_binary_primary
    · intro p e q h
      rw [parse_binary_primary] at h
      split at h
      · simp at h
      · rename_i t hpeek
        split at h
        · split at h
          rename_i i p1 hgn
          simp only [Option.some.injEq, Prod.mk.injEq] at h
          obtain ⟨-, rfl⟩ := h
          exact (skip_token_shrinks hpeek).trans_steps (get_next_id_eq_steps hgn)
        · split at h
          rename_i i p1 hgn
          simp only [Option.some.injEq, Prod.mk.injEq] at h
          obtain ⟨-, rfl⟩ := h
          exact (skip_token_shrinks hpeek).trans_steps (get_next_id_eq_steps hgn)
        · split at h
          rename_i i p1 hgn
          simp only [Option.some.injEq, Prod.mk.injEq] at h
          obtain ⟨-, rfl⟩ := h
          exact (skip_token_shrinks hpeek).trans_steps (get_next_id_eq_steps hgn)
        · split at h
          · simp at h
          · rename_i t2 hpeek2
            split at h
            · exact (skip_token_shrinks hpeek).trans_shrinks (ihce _ _ _ _ h)
            · split at h
              rename_i i p1 hgn
              simp only [Option.some.injEq, Prod.mk.injEq] at h
              obtain ⟨-, rfl⟩ := h
              exact (skip_token_shrinks hpeek).trans_steps (get_next_id_eq_steps hgn)
        · split at h
          · simp at h
          · simp at h
          · rename_i e1 p1 hrec
            split at h
            · simp at h
            · rename_i p2 hskip
              simp only [Option.some.injEq, Prod.mk.injEq] at h
              obtain ⟨-, rfl⟩ := h
              exact ((skip_token_shrinks hpeek).trans_shrinks (ihe _ _ _ hrec)).trans_shrinks
                (skip_expected_token_shrinks hskip)
        · split at h
          · simp at h
          · simp at h
          · rename_i blk p1 hrec
            split at h
            rename_i i p2 hgn
            simp only [Option.some.injEq, Prod.mk.injEq] at h
            obtain ⟨-, rfl⟩ := h
            exact (ihb _ _ _ hrec).trans_steps (get_next_id_eq_steps hgn)
        · simp at h
    -- parse_call_expr
    · intro s p e q h
      rw [parse_call_expr] at h
      split at h
      · simp at h
      · rename_i t hpeek
        split at h
        · split at h
          rename_i i p1 hgn
          simp only [Option.some.injEq, Prod.mk.injEq] at h
          obtain ⟨-, rfl⟩ := h
          exact ((skip_token_shrinks_of_peek hpeek).trans_steps
            (skip_expected_token_steps _ _)).trans_steps (get_next_id_eq_steps hgn)
        · split at h
          · simp at h
          · simp at h
          · rename_i args p1 hrec
            split at h
            rename_i i p2 hgn
            simp only [Option.some.injEq, Prod.mk.injEq] at h
            obtain ⟨-, rfl⟩ := h
            exact (((skip_token_shrinks_of_peek hpeek).trans_shrinks
              (ihcp _ _ _ hrec)).trans_steps
              (skip_expected_token_steps _ _)).trans_steps (get_next_id_eq_steps hgn)
    -- parse_call_params
    · intro p l q h
      rw [parse_call_params] at h
      split at h
      · simp at h
      · simp at h
      · rename_i e1 p1 hrec
        exact (ihe _ _ _ hrec).trans_steps (ihcpl _ _ _ _ h)
    -- parse_call_params_loop
    · intro a p l q h
      rw [parse_call_params_loop] at h
      split at h
      · simp at h
      · rename_i t hpeek
        split at h
        · split at h
          · simp at h
          · rename_i t2 hpeek2
            split at h
            · split at h
              · simp at h
              · simp at h
              · rename_i e1 p1 hrec
                exact ((skip_token_shrinks hpeek).steps.trans
                  (ihe _ _ _ hrec).steps).trans (ihcpl _ _ _ _ h)
            · exact (skip_token_shrinks hpeek).steps.trans (ihcpl _ _ _ _ h)
        · simp only [Option.some.injEq, Prod.mk.injEq] at h
          obtain ⟨-, rfl⟩ := h
          exact StepsTo.refl _
    -- parse_block
    · intro p l q h
      rw [parse_block] at h
      split at h
      · simp at h
      · rename_i p1 hskip
        exact (skip_expected_token_shrinks hskip).trans_steps (ihbl _ _ _ _ h)
    -- parse_block_loop
    · intro a p l q h
      rw [parse_block_loop] at h
      split at h
      · simp at h
      · rename_i t hpeek
        split at h
        · split at h
          · simp at h
          · simp at h
          · rename_i e1 p1 hrec
            exact (ihe _ _ _ hrec).steps.trans (ihbl _ _ _ _ h)
        · split at h
          · simp at h
          · rename_i p1 hskip
            simp only [Option.some.injEq, Prod.mk.injEq] at h
            obtain ⟨-, rfl⟩ := h
            exact (skip_expected_token_shrinks hskip).steps

/-- Corollary of progress_master for parse_expr. -/
theorem parse_expr_shrinks {fuel : Nat} {p : Parser} {e : Expr} {q : Parser}
    (h : parse_expr fuel p = some (some (e, q))) : ShrinksTo p q :=
  (progress_master fuel).1 _ _ _ h

/-- Corollary of progress_master for parse_if_expr. -/
theorem parse_if_expr_shrinks {fuel : Nat} {p : Parser} {e : Expr} {q : Parser}
    (h : parse_if_expr fuel p = some (some (e, q))) : ShrinksTo p q :=
  (progress_master fuel).2.1 _ _ _ h

/-- Corollary of progress_master for parse_assign. -/
theorem parse_assign_shrinks {fuel : Nat} {p : Parser} {e : Expr} {q : Parser}
    (h : parse_assign fuel p = some (some (e, q))) : ShrinksTo p q :=
  (progress_master fuel).2.2.1 _ _ _ h

/-- Corollary of progress_master for parse_binary_equality. -/
theorem parse_binary_equality_shrinks {fuel : Nat} {p : Parser} {e : Expr} {q : Parser}
    (h : parse_binary_equality fuel p = some (some (e, q))) : ShrinksTo p q :=
  (progress_master fuel).2.2.2.1 _ _ _ h

/-- Corollary of progress_master for parse_binary_relational. -/
theorem parse_binary_relational_shrinks {fuel : Nat} {p : Parser} {e : Expr} {q : Parser}
    (h : parse_binary_relational fuel p = some (some (e, q))) : ShrinksTo p q :=
  (progress_master fuel).2.2.2.2.1 _ _ _ h

/-- Corollary of progress_master for parse_binary_add. -/
theorem parse_binary_add_shrinks {fuel : Nat} {p : Parser} {e : Expr} {q : Parser}
    (h : parse_binary_add fuel p = some (some (e, q))) : ShrinksTo p q :=
  (progress_master fuel).2.2.2.2.2.1 _ _ _ h

/-- Corollary of progress_master for parse_binary_mul. -/
theorem parse_binary_mul_shrinks {fuel : Nat} {p : Parser} {e : Expr} {q : Parser}
    (h : parse_binary_mul fuel p = some (some (e, q))) : ShrinksTo p q :=
  (progress_master fuel).2.2.2.2.2.2.1 _ _ _ h

/-- Corollary of progress_master for parse_binary_unary. -/
theorem parse_binary_unary_shrinks {fuel : Nat} {p : Parser} {e : Expr} {q : Parser}
    (h : parse_binary_unary fuel p = some (some (e, q))) : ShrinksTo p q :=
  (progress_master fuel).2.2.2.2.2.2.2.1 _ _ _ h

/-- Corollary of progress_master for parse_binary_primary. -/
theorem parse_binary_primary_shrinks {fuel : Nat} {p : Parser} {e : Expr} {q : Parser}
    (h : parse_binary_primary fuel p = some (some (e, q))) : ShrinksTo p q :=
  (progress_master fuel).2.2.2.2.2.2.2.2.1 _ _ _ h

/-- Corollary of progress_master for parse_call_expr. -/
theorem parse_call_expr_shrinks {fuel : Nat} {s : String} {p : Parser} {e : Expr} {q : Parser}
    (h : parse_call_expr fuel s p = some (some (e, q))) : ShrinksTo p q :=
  (progress_master fuel).2.2.2.2.2.2.2.2.2.1 _ _ _ _ h

/-- Corollary of progress_master for parse_call_params. -/
theorem parse_call_params_shrinks {fuel : Nat} {p : Parser} {l : List Expr} {q : Parser}
    (h : parse_call_params fuel p = some (some (l, q))) : ShrinksTo p q :=
  (progress_master fuel).2.2.2.2.2.2.2.2.2.2.1 _ _ _ h

/-- Corollary of progress_master for parse_call_params_loop. -/
theorem parse_call_params_loop_steps {fuel : Nat} {a : List Expr} {p : Parser} {l : List Expr}
    {q : Parser} (h : parse_call_params_loop fuel a p = some (some (l, q))) : StepsTo p q :=
  (progress_master fuel).2.2.2.2.2.2.2.2.2.2.2.1 _ _ _ _ h

/-- Corollary of progress_master for parse_block. -/
theorem parse_block_shrinks {fuel : Nat} {p : Parser} {l : List Expr} {q : Parser}
    (h : parse_block fuel p = some (some (l, q))) : ShrinksTo p q :=
  (progress_master fuel).2.2.2.2.2.2.2.2.2.2.2.2.1 _ _ _ h

/-- Corollary of progress_master for parse_block_loop. -/
theorem parse_block_loop_steps {fuel : Nat} {a : List Expr} {p : Parser} {l : List Expr}
    {q : Parser} (h : parse_block_loop fuel a p = some (some (l, q))) : StepsTo p q :=
  (progress_master fuel).2.2.2.2.2.2.2.2.2.2.2.2.2 _ _ _ _ h

/-- All members of l lie in the half-open id interval (a, b]. -/
def IdsBdd (l : List Nat) (a b : Nat) : Prop :=
  ∀ i ∈ l, a < i ∧ i ≤ b

theorem idsBdd_nil (a b : Nat) : IdsBdd [] a b := by
  intro i hi
  simp at hi

theorem idsBdd_mono {l : List Nat} {a a' b b' : Nat} (ha : a' ≤ a) (hb : b ≤ b')
    (h : IdsBdd l a b) : IdsBdd l a' b' := by
  intro i hi
  have := h i hi
  omega

theorem ids_append {l1 l2 : List Nat} {a b c : Nat} (n1 : l1.Nodup) (n2 : l2.Nodup)
    (h1 : IdsBdd l1 a b) (h2 : IdsBdd l2 b c) (hab : a ≤ b) (hbc : b ≤ c) :
    (l1 ++ l2).Nodup ∧ IdsBdd (l1 ++ l2) a c := by
  constructor
  · rw [List.nodup_append]
    refine ⟨n1, n2, ?_⟩
    intro x hx1 hx2
    have := h1 x hx1
    have := h2 x hx2
    omega
  · intro i hi
    rcases List.mem_append.1 hi with hi | hi
    · have := h1 i hi
      omega
    · have := h2 i hi
      omega

theorem ids_step_cons {l : List Nat} {a b : Nat} (n : l.Nodup) (hb : IdsBdd l a b)
    (hab : a ≤ b) : ((b + 1) :: l).Nodup ∧ IdsBdd ((b + 1) :: l) a (b + 1) := by
  constructor
  · rw [List.nodup_cons]
    refine ⟨?_, n⟩
    intro hmem
    have := hb _ hmem
    omega
  · intro i hi
    rcases List.mem_cons.1 hi with rfl | hi
    · omega
    · have := hb i hi
      omega

theorem ids_if_assembly {A B C : List Nat} {a b c d : Nat}
    (nA : A.Nodup) (nB : B.Nodup) (nC : C.Nodup)
    (hA : IdsBdd A a b) (hB : IdsBdd B b c) (hC : IdsBdd C c d)
    (hab : a ≤ b) (hbc : b ≤ c) (hcd : c ≤ d) :
    ((d + 2) :: (A ++ (d + 1) :: B ++ C)).Nodup ∧
      IdsBdd ((d + 2) :: (A ++ (d + 1) :: B ++ C)) a (d + 2) := by
  have memA : ∀ i ∈ A, a < i ∧ i ≤ b := hA
  have memB : ∀ i ∈ B, b < i ∧ i ≤ c := hB
  have memC : ∀ i ∈ C, c < i ∧ i ≤ d := hC
  have memBig : ∀ i ∈ A ++ (d + 1) :: B ++ C,
      (a < i ∧ i ≤ b) ∨ i = d + 1 ∨ (b < i ∧ i ≤ c) ∨ (c < i ∧ i ≤ d) := by
    intro i hi
    rcases List.mem_append.1 hi with hm | hm
    · rcases List.mem_append.1 hm with hm | hm
      · exact Or.inl (memA _ hm)
      · rcases List.mem_cons.1 hm with rfl | hm
        · exact Or.inr (Or.inl rfl)
        · exact Or.inr (Or.inr (Or.inl (memB _ hm)))
    · exact Or.inr (Or.inr (Or.inr (memC _ hm)))
  have nB2 : ((d + 1) :: B).Nodup := by
    rw [List.nodup_cons]
    refine ⟨fun hm => ?_, nB⟩
    have := memB _ hm
    omega
  have nAB : (A ++ (d + 1) :: B).Nodup := by
    rw [List.nodup_append]
    refine ⟨nA, nB2, ?_⟩
    intro x hx hy
    have hxA := memA _ hx
    rcases List.mem_cons.1 hy with rfl | hm
    · omega
    · have := memB _ hm
      omega
  have nABC : (A ++ (d + 1) :: B ++ C).Nodup := by
    rw [List.nodup_append]
    refine ⟨nAB, nC, ?_⟩
    intro x hx hy
    have hyC := memC _ hy
    rcases List.mem_append.1 hx with hm | hm
    · have := memA _ hm
      omega
    · rcases List.mem_cons.1 hm with rfl | hm
      · omega
      · have := memB _ hm
        omega
  constructor
  · rw [List.nodup_cons]
    refine ⟨fun hm => ?_, nABC⟩
    rcases memBig _ hm with h | h | h | h <;> omega
  · intro i hi
    rcases List.mem_cons.1 hi with rfl | hi
    · omega
    · rcases memBig _ hi with h | h | h | h <;> omega

theorem idsOfList_append (l1 l2 : List Expr) :
    idsOfList (l1 ++ l2) = idsOfList l1 ++ idsOfList l2 := by
  induction l1 with
  | nil => simp [idsOfList]
  | cons e es ihl => simp [idsOfList, ihl]

theorem get_next_id_spec {p q : Parser} {i : Nat} (h : get_next_id p = (i, q)) :
    i = p.next_id + 1 ∧ q.next_id = p.next_id + 1 ∧ q.toks = p.toks := by
  rw [get_next_id, Prod.mk.injEq] at h
  obtain ⟨h1, h2⟩ := h
  exact ⟨h1.symm, by rw [← h2], by rw [← h2]⟩

theorem skip_expected_token_next_id (k : TokenKind) (p : Parser) :
    (skip_expected_token k p).2.next_id = p.next_id := by
  cases hp : p.toks with
  | nil => simp [skip_expected_token, hp]
  | cons a l =>
    simp only [skip_expected_token, hp]
    by_cases hk : a.kind = k
    · rw [if_pos hk]
    · rw [if_neg hk]

theorem ids_node_two {l1 l2 : List Nat} {a b c : Nat}
    (n1 : l1.Nodup) (n2 : l2.Nodup) (h1 : IdsBdd l1 a b) (h2 : IdsBdd l2 b c)
    (hab : a ≤ b) (hbc : b ≤ c) :
    ((c + 1) :: (l1 ++ l2)).Nodup ∧ IdsBdd ((c + 1) :: (l1 ++ l2)) a (c + 1) := by
  obtain ⟨n, bb⟩ := ids_append n1 n2 h1 h2 hab hbc
  exact ids_step_cons n bb (le_trans hab hbc)

theorem ids_node_zero (a : Nat) : ([a + 1]).Nodup ∧ IdsBdd [a + 1] a (a + 1) := by
  refine ⟨List.nodup_singleton _, ?_⟩
  intro i hi
  rcases List.mem_singleton.1 hi with rfl
  omega

/-- Node-id invariant for every rule, by one induction on the fuel: a
successful parse returns a tree whose ids are pairwise distinct and lie in
the half-open interval bounded by the id counter before and after the call. -/
theorem ids_master : ∀ fuel : Nat,
    (∀ p e q, parse_expr fuel p = some (some (e, q)) →
      (idsOf e).Nodup ∧ IdsBdd (idsOf e) p.next_id q.next_id)
  ∧ (∀ p e q, parse_if_expr fuel p = some (some (e, q)) →
      (idsOf e).Nodup ∧ IdsBdd (idsOf e) p.next_id q.next_id)
  ∧ (∀ p e q, parse_assign fuel p = some (some (e, q)) →
      (idsOf e).Nodup ∧ IdsBdd (idsOf e) p.next_id q.next_id)
  ∧ (∀ p e q, parse_binary_equality fuel p = some (some (e, q)) →
      (idsOf e).Nodup ∧ IdsBdd (idsOf e) p.next_id q.next_id)
  ∧ (∀ p e q, parse_binary_relational fuel p = some (some (e, q)) →
      (idsOf e).Nodup ∧ IdsBdd (idsOf e) p.next_id q.next_id)
  ∧ (∀ p e q, parse_binary_add fuel p = some (some (e, q)) →
      (idsOf e).Nodup ∧ IdsBdd (idsOf e) p.next_id q.next_id)
  ∧ (∀ p e q, parse_binary_mul fuel p = some (some (e, q)) →
      (idsOf e).Nodup ∧ IdsBdd (idsOf e) p.next_id q.next_id)
  ∧ (∀ p e q, parse_binary_unary fuel p = some (some (e, q)) →
      (idsOf e).Nodup ∧ IdsBdd (idsOf e) p.next_id q.next_id)
  ∧ (∀ p e q, parse_binary_primary fuel p = some (some (e, q)) →
      (idsOf e).Nodup ∧ IdsBdd (idsOf e) p.next_id q.next_id)
  ∧ (∀ s p e q, parse_call_expr fuel s p = some (some (e, q)) →
      (idsOf e).Nodup ∧ IdsBdd (idsOf e) p.next_id q.next_id)
  ∧ (∀ p l q, parse_call_params fuel p = some (some (l, q)) →
      (idsOfList l).Nodup ∧ IdsBdd (idsOfList l) p.next_id q.next_id)
  ∧ (∀ lo args p l q, parse_call_params_loop fuel args p = some (some (l, q)) →
      (idsOfList args).Nodup → IdsBdd (idsOfList args) lo p.next_id → lo ≤ p.next_id →
      (idsOfList l).Nodup ∧ IdsBdd (idsOfList l) lo q.next_id)
  ∧ (∀ p l q, parse_block fuel p = some (some (l, q)) →
      (idsOfList l).Nodup ∧ IdsBdd (idsOfList l) p.next_id q.next_id)
  ∧ (∀ lo args p l q, parse_block_loop fuel args p = some (some (l, q)) →
      (idsOfList args).Nodup → IdsBdd (idsOfList args) lo p.next_id → lo ≤ p.next_id →
      (idsOfList l).Nodup ∧ IdsBdd (idsOfList l) lo q.next_id) := by
  intro fuel
  induction fuel with
  | zero =>
    refine ⟨?_, ?_, ?_, ?_, ?_, ?_, ?_, ?_, ?_, ?_, ?_, ?_, ?_, ?_⟩ <;>
      · intros
        simp_all [parse_expr, parse_if_expr, parse_assign, parse_binary_equality,
          parse_binary_relational, parse_binary_add, parse_binary_mul,
          parse_binary_unary, parse_binary_primary, parse_call_expr,
          parse_call_params, parse_call_params_loop, parse_block,
          parse_block_loop]
  | succ fuel ih =>
    obtain ⟨ihe, ihif, ihas, iheq, ihrel, ihadd, ihmul, ihun, ihpr, ihce, ihcp,
      ihcpl, ihb, ihbl⟩ := ih
    refine ⟨?_, ?_, ?_, ?_, ?_, ?_, ?_, ?_, ?_, ?_, ?_, ?_, ?_, ?_⟩
    -- parse_expr
    · intro p e q h
      rw [parse_expr] at h
      split at h
      · simp at h
      · rename_i t hpeek
        split at h
        · exact ihif _ _ _ h
        · split at h
          · simp at h
          · simp at h
          · rename_i e1 p1 hrec
            split at h
            rename_i i p2 hgn
            simp only [Option.some.injEq, Prod.mk.injEq] at h
            obtain ⟨rfl, rfl⟩ := h
            obtain ⟨n1, b1⟩ := ihe _ _ _ hrec
            rw [skip_token_next_id] at b1
            have m1 : p.next_id ≤ p1.next_id := by
              have := (parse_expr_shrinks hrec).2.2
              rwa [skip_token_next_id] at this
            obtain ⟨hi, hqn, -⟩ := get_next_id_spec hgn
            subst hi
            simp only [idsOf, idsOfKind]
            rw [hqn]
            exact ids_step_cons n1 b1 m1
        · exact ihas _ _ _ h
    -- parse_if_expr
    · intro p e q h
      rw [parse_if_expr] at h
      split at h
      · simp at h
      · rename_i p1 hskip
        split at h
        · simp at h
        · simp at h
        · rename_i cond p2 hcond
          split at h
          · simp at h
          · simp at h
          · rename_i blk p3 hblk
            split at h
            · simp at h
            · rename_i t hpeek
              obtain ⟨nA, bA⟩ := ihe _ _ _ hcond
              obtain ⟨nB, bB⟩ := ihb _ _ _ hblk
              have hp1id : p1.next_id = p.next_id := (skip_expected_token_eq_true hskip).2
              rw [hp1id] at bA
              have mA : p.next_id ≤ p2.next_id := by
                have := (parse_expr_shrinks hcond).2.2
                omega
              have mB : p2.next_id ≤ p3.next_id := (parse_block_shrinks hblk).2.2
              split at h
              · rename_i hElse
                split at h
                · simp at h
                · rename_i t2 hpeek2
                  split at h
                  · split at h
                    · simp at h
                    · simp at h
                    · rename_i e2 p4 hrec
                      split at h
                      rename_i then_id p5 hg1
                      split at h
                      rename_i if_id p6 hg2
                      simp only [Option.some.injEq, Prod.mk.injEq] at h
                      obtain ⟨rfl, rfl⟩ := h
                      obtain ⟨nC, bC⟩ := ihif _ _ _ hrec
                      rw [skip_token_next_id] at bC
                      have mC : p3.next_id ≤ p4.next_id := by
                        have := (parse_if_expr_shrinks hrec).2.2
                        rwa [skip_token_next_id] at this
                      obtain ⟨hi1, hq1, -⟩ := get_next_id_spec hg1
                      obtain ⟨hi2, hq2, -⟩ := get_next_id_spec hg2
                      have e1 : then_id = p4.next_id + 1 := hi1
                      have e2 : if_id = p4.next_id + 2 := by omega
                      have e3 : p6.next_id = p4.next_id + 2 := by omega
                      subst e1
                      subst e2
                      simp only [idsOf, idsOfKind, idsOfOpt]
                      rw [e3]
                      exact ids_if_assembly nA nB nC bA bB bC mA mB mC
                  · split at h
                    · simp at h
                    · simp at h
                    · rename_i blk2 p4 hrec
                      split at h
                      rename_i i0 p5 hg0
                      split at h
                      rename_i then_id p6 hg1
                      split at h
                      rename_i if_id p7 hg2
                      simp only [Option.some.injEq, Prod.mk.injEq] at h
                      obtain ⟨rfl, rfl⟩ := h
                      obtain ⟨nC0, bC0⟩ := ihb _ _ _ hrec
                      rw [skip_token_next_id] at bC0
                      have mC0 : p3.next_id ≤ p4.next_id := by
                        have := (parse_block_shrinks hrec).2.2
                        rwa [skip_token_next_id] at this
                      obtain ⟨hi0, hq0, -⟩ := get_next_id_spec hg0
                      obtain ⟨hi1, hq1, -⟩ := get_next_id_spec hg1
                      obtain ⟨hi2, hq2, -⟩ := get_next_id_spec hg2
                      have e0 : i0 = p4.next_id + 1 := hi0
                      have e1 : then_id = p4.next_id + 2 := by omega
                      have e2 : if_id = p4.next_id + 3 := by omega
                      have e3 : p7.next_id = p4.next_id + 3 := by omega
                      subst e0
                      subst e1
                      subst e2
                      obtain ⟨nC, bC⟩ := ids_step_cons nC0 bC0 mC0
                      simp only [idsOf, idsOfKind, idsOfOpt]
                      rw [e3]
                      have := ids_if_assembly nA nB nC bA bB bC mA mB
                        (le_trans mC0 (Nat.le_succ _))
                      simpa using this
              · split at h
                rename_i then_id p4 hg1
                split at h
                rename_i if_id p5 hg2
                simp only [Option.some.injEq, Prod.mk.injEq] at h
                obtain ⟨rfl, rfl⟩ := h
                obtain ⟨hi1, hq1, -⟩ := get_next_id_spec hg1
                obtain ⟨hi2, hq2, -⟩ := get_next_id_spec hg2
                have e1 : then_id = p3.next_id + 1 := hi1
                have e2 : if_id = p3.next_id + 2 := by omega
                have e3 : p5.next_id = p3.next_id + 2 := by omega
                subst e1
                subst e2
                simp only [idsOf, idsOfKind, idsOfOpt]
                rw [e3]
                have := ids_if_assembly nA nB List.nodup_nil bA bB
                  (idsBdd_nil p3.next_id p3.next_id) mA mB (le_refl _)
                simpa using this
    -- parse_assign
    · intro p e q h
      rw [parse_assign] at h
      split at h
      · simp at h
      · simp at h
      · rename_i lhs p1 heq
        split at h
        · simp at h
        · rename_i t hpeek
          split at h
          · simp only [Option.some.injEq, Prod.mk.injEq] at h
            obtain ⟨rfl, rfl⟩ := h
            exact iheq _ _ _ heq
          · split at h
            · simp at h
            · simp at h
            · rename_i rhs p2 hrec
              split at h
              rename_i i p3 hgn
              simp only [Option.some.injEq, Prod.mk.injEq] at h
              obtain ⟨rfl, rfl⟩ := h
              obtain ⟨n1, b1⟩ := iheq _ _ _ heq
              obtain ⟨n2, b2⟩ := ihas _ _ _ hrec
              rw [skip_token_next_id] at b2
              have m1 : p.next_id ≤ p1.next_id := (parse_binary_equality_shrinks heq).2.2
              have m2 : p1.next_id ≤ p2.next_id := by
                have := (parse_assign_shrinks hrec).2.2
                rwa [skip_token_next_id] at this
              obtain ⟨hi, hqn, -⟩ := get_next_id_spec hgn
              subst hi
              simp only [idsOf, idsOfKind]
              rw [hqn]
              exact ids_node_two n1 n2 b1 b2 m1 m2
    -- parse_binary_equality
    · intro p e q h
      rw [parse_binary_equality] at h
      split at h
      · simp at h
      · simp at h
      · rename_i lhs p1 heq
        split at h
        · simp at h
        · rename_i t hpeek
          split at h
          · split at h
            · simp at h
            · simp at h
            · rename_i rhs p2 hrec
              split at h
              rename_i i p3 hgn
              simp only [Option.some.injEq, Prod.mk.injEq] at h
              obtain ⟨rfl, rfl⟩ := h
              obtain ⟨n1, b1⟩ := ihrel _ _ _ heq
              obtain ⟨n2, b2⟩ := iheq _ _ _ hrec
              rw [skip_token_next_id] at b2
              have m1 : p.next_id ≤ p1.next_id := (parse_binary_relational_shrinks heq).2.2
              have m2 : p1.next_id ≤ p2.next_id := by
                have := (parse_binary_equality_shrinks hrec).2.2
                rwa [skip_token_next_id] at this
              obtain ⟨hi, hqn, -⟩ := get_next_id_spec hgn
              subst hi
              simp only [idsOf, idsOfKind]
              rw [hqn]
              exact ids_node_two n1 n2 b1 b2 m1 m2
          · split at h
            · simp at h
            · simp at h
            · rename_i rhs p2 hrec
              split at h
              rename_i i p3 hgn
              simp only [Option.some.injEq, Prod.mk.injEq] at h
              obtain ⟨rfl, rfl⟩ := h
              obtain ⟨n1, b1⟩ := ihrel _ _ _ heq
              obtain ⟨n2, b2⟩ := iheq _ _ _ hrec
              rw [skip_token_next_id] at b2
              have m1 : p.next_id ≤ p1.next_id := (parse_binary_relational_shrinks heq).2.2
              have m2 : p1.next_id ≤ p2.next_id := by
                have := (parse_binary_equality_shrinks hrec).2.2
                rwa [skip_token_next_id] at this
              obtain ⟨hi, hqn, -⟩ := get_next_id_spec hgn
              subst hi
              simp only [idsOf, idsOfKind]
              rw [hqn]
              exact ids_node_two n1 n2 b1 b2 m1 m2
          · simp only [Option.some.injEq, Prod.mk.injEq] at h
            obtain ⟨rfl, rfl⟩ := h
            exact ihrel _ _ _ heq
    -- parse_binary_relational
    · intro p e q h
      rw [parse_binary_relational] at h
      split at h
      · simp at h
      · simp at h
      · rename_i lhs p1 heq
        split at h
        · simp at h
        · rename_i t hpeek
          split at h
          · split at h
            · simp at h
            · simp at h
            · rename_i rhs p2 hrec
              split at h
              rename_i i p3 hgn
              simp only [Option.some.injEq, Prod.mk.injEq] at h
              obtain ⟨rfl, rfl⟩ := h
              obtain ⟨n1, b1⟩ := ihadd _ _ _ heq
              obtain ⟨n2, b2⟩ := ihrel _ _ _ hrec
              rw [skip_token_next_id] at b2
              have m1 : p.next_id ≤ p1.next_id := (parse_binary_add_shrinks heq).2.2
              have m2 : p1.next_id ≤ p2.next_id := by
                have := (parse_binary_relational_shrinks hrec).2.2
                rwa [skip_token_next_id] at this
              obtain ⟨hi, hqn, -⟩ := get_next_id_spec hgn
              subst hi
              simp only [idsOf, idsOfKind]
              rw [hqn]
              exact ids_node_two n1 n2 b1 b2 m1 m2
          · split at h
            · simp at h
            · simp at h
            · rename_i rhs p2 hrec
              split at h
              rename_i i p3 hgn
              simp only [Option.some.injEq, Prod.mk.injEq] at h
              obtain ⟨rfl, rfl⟩ := h
              obtain ⟨n1, b1⟩ := ihadd _ _ _ heq
              obtain ⟨n2, b2⟩ := ihrel _ _ _ hrec
              rw [skip_token_next_id] at b2
              have m1 : p.next_id ≤ p1.next_id := (parse_binary_add_shrinks heq).2.2
              have m2 : p1.next_id ≤ p2.next_id := by
                have := (parse_binary_relational_shrinks hrec).2.2
                rwa [skip_token_next_id] at this
              obtain ⟨hi, hqn, -⟩ := get_next_id_spec hgn
              subst hi
              simp only [idsOf, idsOfKind]
              rw [hqn]
              exact ids_node_two n1 n2 b1 b2 m1 m2
          · simp only [Option.some.injEq, Prod.mk.injEq] at h
            obtain ⟨rfl, rfl⟩ := h
            exact ihadd _ _ _ heq
    -- parse_binary_add
    · intro p e q h
      rw [parse_binary_add] at h
      split at h
      · simp at h
      · simp at h
      · rename_i lhs p1 heq
        split at h
        · simp at h
        · rename_i t hpeek
          split at h
          · split at h
            · simp at h
            · simp at h
            · rename_i rhs p2 hrec
              split at h
              rename_i i p3 hgn
              simp only [Option.some.injEq, Prod.mk.injEq] at h
              obtain ⟨rfl, rfl⟩ := h
              obtain ⟨n1, b1⟩ := ihmul _ _ _ heq
              obtain ⟨n2, b2⟩ := ihadd _ _ _ hrec
              rw [skip_token_next_id] at b2
              have m1 : p.next_id ≤ p1.next_id := (parse_binary_mul_shrinks heq).2.2
              have m2 : p1.next_id ≤ p2.next_id := by
                have := (parse_binary_add_shrinks hrec).2.2
                rwa [skip_token_next_id] at this
              obtain ⟨hi, hqn, -⟩ := get_next_id_spec hgn
              subst hi
              simp only [idsOf, idsOfKind]
              rw [hqn]
              exact ids_node_two n1 n2 b1 b2 m1 m2
          · split at h
            · simp at h
            · simp at h
            · rename_i rhs p2 hrec
              split at h
              rename_i i p3 hgn
              simp only [Option.some.injEq, Prod.mk.injEq] at h
              obtain ⟨rfl, rfl⟩ := h
              obtain ⟨n1, b1⟩ := ihmul _ _ _ heq
              obtain ⟨n2, b2⟩ := ihadd _ _ _ hrec
              rw [skip_token_next_id] at b2
              have m1 : p.next_id ≤ p1.next_id := (parse_binary_mul_shrinks heq).2.2
              have m2 : p1.next_id ≤ p2.next_id := by
                have := (parse_binary_add_shrinks hrec).2.2
                rwa [skip_token_next_id] at this
              obtain ⟨hi, hqn, -⟩ := get_next_id_spec hgn
              subst hi
              simp only [idsOf, idsOfKind]
              rw [hqn]
              exact ids_node_two n1 n2 b1 b2 m1 m2
          · simp only [Option.some.injEq, Prod.mk.injEq] at h
            obtain ⟨rfl, rfl⟩ := h
            exact ihmul _ _ _ heq
    -- parse_binary_mul
    · intro p e q h
      rw [parse_binary_mul] at h
      split at h
      · simp at h
      · simp at h
      · rename_i lhs p1 heq
        split at h
        · simp at h
        · rename_i t hpeek
          split at h
          · split at h
            · simp at h
            · simp at h
            · rename_i rhs p2 hrec
              split at h
              rename_i i p3 hgn
              simp only [Option.some.injEq, Prod.mk.injEq] at h
              obtain ⟨rfl, rfl⟩ := h
              obtain ⟨n1, b1⟩ := ihun _ _ _ heq
              obtain ⟨n2, b2⟩ := ihmul _ _ _ hrec
              rw [skip_token_next_id] at b2
              have m1 : p.next_id ≤ p1.next_id := (parse_binary_unary_shrinks heq).2.2
              have m2 : p1.next_id ≤ p2.next_id := by
                have := (parse_binary_mul_shrinks hrec).2.2
                rwa [skip_token_next_id] at this
              obtain ⟨hi, hqn, -⟩ := get_next_id_spec hgn
              subst hi
              simp only [idsOf, idsOfKind]
              rw [hqn]
              exact ids_node_two n1 n2 b1 b2 m1 m2
          · simp only [Option.some.injEq, Prod.mk.injEq] at h
            obtain ⟨rfl, rfl⟩ := h
            exact ihun _ _ _ heq
    -- parse_binary_unary
    · intro p e q h
      rw [parse_binary_unary] at h
      split at h
      · simp at h
      · rename_i t hpeek
        split at h
        · split at h
          · simp at h
          · simp at h
          · rename_i prim p1 hrec
            split at h
            rename_i i p2 hgn
            simp only [Option.some.injEq, Prod.mk.injEq] at h
            obtain ⟨rfl, rfl⟩ := h
            obtain ⟨n1, b1⟩ := ihpr _ _ _ hrec
            rw [skip_token_next_id] at b1
            have m1 : p.next_id ≤ p1.next_id := by
              have := (parse_binary_primary_shrinks hrec).2.2
              rwa [skip_token_next_id] at this
            obtain ⟨hi, hqn, -⟩ := get_next_id_spec hgn
            subst hi
            simp only [idsOf, idsOfKind]
            rw [hqn]
            exact ids_step_cons n1 b1 m1
        · split at h
          · simp at h
          · simp at h
          · rename_i prim p1 hrec
            split at h
            rename_i i p2 hgn
            simp only [Option.some.injEq, Prod.mk.injEq] at h
            obtain ⟨rfl, rfl⟩ := h
            obtain ⟨n1, b1⟩ := ihpr _ _ _ hrec
            rw [skip_token_next_id] at b1
            have m1 : p.next_id ≤ p1.next_id := by
              have := (parse_binary_primary_shrinks hrec).2.2
              rwa [skip_token_next_id] at this
            obtain ⟨hi, hqn, -⟩ := get_next_id_spec hgn
            subst hi
            simp only [idsOf, idsOfKind]
            rw [hqn]
            exact ids_step_cons n1 b1 m1
        · exact ihpr _ _ _ h
    -- parse_binary_primary
    · intro p e q h
      rw [parse_binary_primary] at h
      split at h
      · simp at h
      · rename_i t hpeek
        split at h
        · split at h
          rename_i i p1 hgn
          simp only [Option.some.injEq, Prod.mk.injEq] at h
          obtain ⟨rfl, rfl⟩ := h
          obtain ⟨hi, hqn, -⟩ := get_next_id_spec hgn
          rw [skip_token_next_id] at hi hqn
          subst hi
          simp only [idsOf, idsOfKind]
          rw [hqn]
          exact ids_node_zero p.next_id
        · split at h
          rename_i i p1 hgn
          simp only [Option.some.injEq, Prod.mk.injEq] at h
          obtain ⟨rfl, rfl⟩ := h
          obtain ⟨hi, hqn, -⟩ := get_next_id_spec hgn
          rw [skip_token_next_id] at hi hqn
          subst hi
          simp only [idsOf, idsOfKind]
          rw [hqn]
          exact ids_node_zero p.next_id
        · split at h
          rename_i i p1 hgn
          simp only [Option.some.injEq, Prod.mk.injEq] at h
          obtain ⟨rfl, rfl⟩ := h
          obtain ⟨hi, hqn, -⟩ := get_next_id_spec hgn
          rw [skip_token_next_id] at hi hqn
          subst hi
          simp only [idsOf, idsOfKind]
          rw [hqn]
          exact ids_node_zero p.next_id
        · split at h
          · simp at h
          · rename_i t2 hpeek2
            split at h
            · have := ihce _ _ _ _ h
              rwa [skip_token_next_id] at this
            · split at h
              rename_i i p1 hgn
              simp only [Option.some.injEq, Prod.mk.injEq] at h
              obtain ⟨rfl, rfl⟩ := h
              obtain ⟨hi, hqn, -⟩ := get_next_id_spec hgn
              rw [skip_token_next_id] at hi hqn
              subst hi
              simp only [idsOf, idsOfKind]
              rw [hqn]
              exact ids_node_zero p.next_id
        · split at h
          · simp at h
          · simp at h
          · rename_i e1 p1 hrec
            split at h
            · simp at h
            · rename_i p2 hskip
              simp only [Option.some.injEq, Prod.mk.injEq] at h
              obtain ⟨rfl, rfl⟩ := h
              obtain ⟨n1, b1⟩ := ihe _ _ _ hrec
              rw [skip_token_next_id] at b1
              have hq2 : p2.next_id = p1.next_id := (skip_expected_token_eq_true hskip).2
              rw [hq2]
              exact ⟨n1, b1⟩
        · split at h
          · simp at h
          · simp at h
          · rename_i blk p1 hrec
            split at h
            rename_i i p2 hgn
            simp only [Option.some.injEq, Prod.mk.injEq] at h
            obtain ⟨rfl, rfl⟩ := h
            obtain ⟨n1, b1⟩ := ihb _ _ _ hrec
            have m1 : p.next_id ≤ p1.next_id := (parse_block_shrinks hrec).2.2
            obtain ⟨hi, hqn, -⟩ := get_next_id_spec hgn
            subst hi
            simp only [idsOf, idsOfKind]
            rw [hqn]
            exact ids_step_cons n1 b1 m1
        · simp at h
    -- parse_call_expr
    · intro s p e q h
      rw [parse_call_expr] at h
      split at h
      · simp at h
      · rename_i t hpeek
        split at h
        · split at h
          rename_i i p1 hgn
          simp only [Option.some.injEq, Prod.mk.injEq] at h
          obtain ⟨rfl, rfl⟩ := h
          obtain ⟨hi, hqn, -⟩ := get_next_id_spec hgn
          rw [skip_expected_token_next_id, skip_token_next_id] at hi hqn
          subst hi
          simp only [idsOf, idsOfKind, idsOfList]
          rw [hqn]
          exact ids_node_zero p.next_id
        · split at h
          · simp at h
          · simp at h
          · rename_i args p1 hrec
            split at h
            rename_i i p2 hgn
            simp only [Option.some.injEq, Prod.mk.injEq] at h
            obtain ⟨rfl, rfl⟩ := h
            obtain ⟨n1, b1⟩ := ihcp _ _ _ hrec
            rw [skip_token_next_id] at b1
            have m1 : p.next_id ≤ p1.next_id := by
              have := (parse_call_params_shrinks hrec).2.2
              rwa [skip_token_next_id] at this
            obtain ⟨hi, hqn, -⟩ := get_next_id_spec hgn
            rw [skip_expected_token_next_id] at hi hqn
            subst hi
            simp only [idsOf, idsOfKind]
            rw [hqn]
            exact ids_step_cons n1 b1 m1
    -- parse_call_params
    · intro p l q h
      rw [parse_call_params] at h
      split at h
      · simp at h
      · simp at h
      · rename_i e1 p1 hrec
        obtain ⟨n1, b1⟩ := ihe _ _ _ hrec
        have m1 : p.next_id ≤ p1.next_id := (parse_expr_shrinks hrec).2.2
        refine ihcpl p.next_id [e1] p1 l q h ?_ ?_ m1
        · simpa [idsOfList] using n1
        · simpa [idsOfList] using b1
    -- parse_call_params_loop
    · intro lo args p l q h nargs bargs hlo
      rw [parse_call_params_loop] at h
      split at h
      · simp at h
      · rename_i t hpeek
        split at h
        · split at h
          · simp at h
          · rename_i t2 hpeek2
            split at h
            · split at h
              · simp at h
              · simp at h
              · rename_i e1 p1 hrec
                obtain ⟨n1, b1⟩ := ihe _ _ _ hrec
                rw [skip_token_next_id] at b1
                have m1 : p.next_id ≤ p1.next_id := by
                  have := (parse_expr_shrinks hrec).2.2
                  rwa [skip_token_next_id] at this
                obtain ⟨nn, bb⟩ := ids_append nargs n1 bargs b1 hlo m1
                refine ihcpl lo (args ++ [e1]) p1 l q h ?_ ?_ (le_trans hlo m1)
                · simpa [idsOfList_append, idsOfList] using nn
                · simpa [idsOfList_append, idsOfList] using bb
            · refine ihcpl lo args (skip_token p).2 l q h nargs ?_ ?_
              · rwa [skip_token_next_id]
              · rwa [skip_token_next_id]
        · simp only [Option.some.injEq, Prod.mk.injEq] at h
          obtain ⟨rfl, rfl⟩ := h
          exact ⟨nargs, bargs⟩
    -- parse_block
    · intro p l q h
      rw [parse_block] at h
      split at h
      · simp at h
      · rename_i p1 hskip
        have hp1 : p1.next_id = p.next_id := (skip_expected_token_eq_true hskip).2
        have := ihbl p.next_id [] p1 l q h (by simp [idsOfList])
          (by rw [hp1]; exact idsBdd_nil _ _) (le_of_eq hp1.symm)
        exact this
    -- parse_block_loop
    · intro lo args p l q h nargs bargs hlo
      rw [parse_block_loop] at h
      split at h
      · simp at h
      · rename_i t hpeek
        split at h
        · split at h
          · simp at h
          · simp at h
          · rename_i e1 p1 hrec
            obtain ⟨n1, b1⟩ := ihe _ _ _ hrec
            have m1 : p.next_id ≤ p1.next_id := (parse_expr_shrinks hrec).2.2
            obtain ⟨nn, bb⟩ := ids_append nargs n1 bargs b1 hlo m1
            refine ihbl lo (args ++ [e1]) p1 l q h ?_ ?_ (le_trans hlo m1)
            · simpa [idsOfList_append, idsOfList] using nn
            · simpa [idsOfList_append, idsOfList] using bb
        · split at h
          · simp at h
          · rename_i p1 hskip
            simp only [Option.some.injEq, Prod.mk.injEq] at h
            obtain ⟨rfl, rfl⟩ := h
            have hp1 : p1.next_id = p.next_id := (skip_expected_token_eq_true hskip).2
            rw [hp1]
            exact ⟨nargs, bargs⟩

theorem skip_token_length {p : Parser} {t : Token} (h : peek_token p = some t) :
    (skip_token p).2.toks.length + 1 = p.toks.length := by
  rw [skip_token_toks]
  conv_rhs => rw [peek_token_toks h]
  simp

theorem skip_expected_token_length {k : TokenKind} {p q : Parser}
    (h : skip_expected_token k p = (true, q)) : q.toks.length + 1 = p.toks.length := by
  rw [(skip_expected_token_eq_true h).1]
  simp

theorem skip_token_length_of_peek {p : Parser} {t : Token}
    (h : peek_token (skip_token p).2 = some t) :
    (skip_token p).2.toks.length + 1 = p.toks.length := by
  cases hp : p.toks with
  | nil =>
    rw [show (skip_token p).2 = p by rw [skip_token, hp]] at h
    simp [peek_token, hp] at h
  | cons a l =>
    rw [skip_token_toks, hp]
    simp

/-- Fuel sufficiency for every rule, by one induction on the fuel: with fuel
at least ten times the number of remaining tokens plus a small per-rule
constant, no rule ever runs out of fuel.  This is the termination argument
of the mutual recursion: every cycle back into the same rule consumes at
least one token first. -/
theorem fuel_master : ∀ fuel : Nat,
    (∀ p, 10 * p.toks.length + 9 ≤ fuel → parse_expr fuel p ≠ none)
  ∧ (∀ p, 10 * p.toks.length + 8 ≤ fuel → parse_if_expr fuel p ≠ none)
  ∧ (∀ p, 10 * p.toks.length + 8 ≤ fuel → parse_assign fuel p ≠ none)
  ∧ (∀ p, 10 * p.toks.length + 7 ≤ fuel → parse_binary_equality fuel p ≠ none)
  ∧ (∀ p, 10 * p.toks.length + 6 ≤ fuel → parse_binary_relational fuel p ≠ none)
  ∧ (∀ p, 10 * p.toks.length + 5 ≤ fuel → parse_binary_add fuel p ≠ none)
  ∧ (∀ p, 10 * p.toks.length + 4 ≤ fuel → parse_binary_mul fuel p ≠ none)
  ∧ (∀ p, 10 * p.toks.length + 3 ≤ fuel → parse_binary_unary fuel p ≠ none)
  ∧ (∀ p, 10 * p.toks.length + 2 ≤ fuel → parse_binary_primary fuel p ≠ none)
  ∧ (∀ s p, 10 * p.toks.length + 11 ≤ fuel → parse_call_expr fuel s p ≠ none)
  ∧ (∀ p, 10 * p.toks.length + 10 ≤ fuel → parse_call_params fuel p ≠ none)
  ∧ (∀ a p, 10 * p.toks.length + 10 ≤ fuel → parse_call_params_loop fuel a p ≠ none)
  ∧ (∀ p, 10 * p.toks.length + 1 ≤ fuel → parse_block fuel p ≠ none)
  ∧ (∀ a p, 10 * p.toks.length + 10 ≤ fuel → parse_block_loop fuel a p ≠ none) := by
  intro fuel
  induction fuel with
  | zero =>
    refine ⟨?_, ?_, ?_, ?_, ?_, ?_, ?_, ?_, ?_, ?_, ?_, ?_, ?_, ?_⟩ <;>
      first
      | (intro p hf; exact absurd hf (by omega))
      | (intro x p hf; exact absurd hf (by omega))
  | succ fuel ih =>
    obtain ⟨ihe, ihif, ihas, iheq, ihrel, ihadd, ihmul, ihun, ihpr, ihce, ihcp,
      ihcpl, ihb, ihbl⟩ := ih
    refine ⟨?_, ?_, ?_, ?_, ?_, ?_, ?_, ?_, ?_, ?_, ?_, ?_, ?_, ?_⟩
    -- parse_expr
    · intro p hf hno
      rw [parse_expr] at hno
      split at hno
      · simp at hno
      · rename_i t hpeek
        split at hno
        · exact ihif _ (by omega) hno
        · have hl := skip_token_length hpeek
          split at hno
          · rename_i hrec
            exact ihe _ (by omega) hrec
          · simp at hno
          · split at hno
            simp at hno
        · exact ihas _ (by omega) hno
    -- parse_if_expr
    · intro p hf hno
      rw [parse_if_expr] at hno
      split at hno
      · simp at hno
      · rename_i p1 hskip
        have hl1 := skip_expected_token_length hskip
        split at hno
        · rename_i hrec
          exact ihe _ (by omega) hrec
        · simp at hno
        · rename_i cond p2 hcond
          have hl2 := (parse_expr_shrinks hcond).2.1
          split at hno
          · rename_i hrec
            exact ihb _ (by omega) hrec
          · simp at hno
          · rename_i blk p3 hblk
            have hl3 := (parse_block_shrinks hblk).2.1
            split at hno
            · simp at hno
            · rename_i t hpeek
              split at hno
              · rename_i hElse
                have hl4 := skip_token_length hpeek
                split at hno
                · simp at hno
                · rename_i t2 hpeek2
                  split at hno
                  · split at hno
                    · rename_i hrec
                      exact ihif _ (by omega) hrec
                    · simp at hno
                    · split at hno
                      split at hno
                      simp at hno
                  · split at hno
                    · rename_i hrec
                      exact ihb _ (by omega) hrec
                    · simp at hno
                    · split at hno
                      split at hno
                      split at hno
                      simp at hno
              · split at hno
                split at hno
                simp at hno
    -- parse_assign
    · intro p hf hno
      rw [parse_assign] at hno
      split at hno
      · rename_i hrec
        exact iheq _ (by omega) hrec
      · simp at hno
      · rename_i lhs p1 heq
        have hl1 := (parse_binary_equality_shrinks heq).2.1
        split at hno
        · simp at hno
        · rename_i t hpeek
          have hl2 := skip_token_length hpeek
          split at hno
          · simp at hno
          · split at hno
            · rename_i hrec
              exact ihas _ (by omega) hrec
            · simp at hno
            · split at hno
              simp at hno
    -- parse_binary_equality
    · intro p hf hno
      rw [parse_binary_equality] at hno
      split at hno
      · rename_i hrec
        exact ihrel _ (by omega) hrec
      · simp at hno
      · rename_i lhs p1 heq
        have hl1 := (parse_binary_relational_shrinks heq).2.1
        split at hno
        · simp at hno
        · rename_i t hpeek
          have hl2 := skip_token_length hpeek
          split at hno
          · split at hno
            · rename_i hrec
              exact iheq _ (by omega) hrec
            · simp at hno
            · split at hno
              simp at hno
          · split at hno
            · rename_i hrec
              exact iheq _ (by omega) hrec
            · simp at hno
            · split at hno
              simp at hno
          · simp at hno
    -- parse_binary_relational
    · intro p hf hno
      rw [parse_binary_relational] at hno
      split at hno
      · rename_i hrec
        exact ihadd _ (by omega) hrec
      · simp at hno
      · rename_i lhs p1 heq
        have hl1 := (parse_binary_add_shrinks heq).2.1
        split at hno
        · simp at hno
        · rename_i t hpeek
          have hl2 := skip_token_length hpeek
          split at hno
          · split at hno
            · rename_i hrec
              exact ihrel _ (by omega) hrec
            · simp at hno
            · split at hno
              simp at hno
          · split at hno
            · rename_i hrec
              exact ihrel _ (by omega) hrec
            · simp at hno
            · split at hno
              simp at hno
          · simp at hno
    -- parse_binary_add
    · intro p hf hno
      rw [parse_binary_add] at hno
      split at hno
      · rename_i hrec
        exact ihmul _ (by omega) hrec
      · simp at hno
      · rename_i lhs p1 heq
        have hl1 := (parse_binary_mul_shrinks heq).2.1
        split at hno
        · simp at hno
        · rename_i t hpeek
          have hl2 := skip_token_length hpeek
          split at hno
          · split at hno
            · rename_i hrec
              exact ihadd _ (by omega) hrec
            · simp at hno
            · split at hno
              simp at hno
          · split at hno
            · rename_i hrec
              exact ihadd _ (by omega) hrec
            · simp at hno
            · split at hno
              simp at hno
          · simp at hno
    -- parse_binary_mul
    · intro p hf hno
      rw [parse_binary_mul] at hno
      split at hno
      · rename_i hrec
        exact ihun _ (by omega) hrec
      · simp at hno
      · rename_i lhs p1 heq
        have hl1 := (parse_binary_unary_shrinks heq).2.1
        split at hno
        · simp at hno
        · rename_i t hpeek
          have hl2 := skip_token_length hpeek
          split at hno
          · split at hno
            · rename_i hrec
              exact ihmul _ (by omega) hrec
            · simp at hno
            · split at hno
              simp at hno
          · simp at hno
    -- parse_binary_unary
    · intro p hf hno
      rw [parse_binary_unary] at hno
      split at hno
      · simp at hno
      · rename_i t hpeek
        have hl := skip_token_length hpeek
        split at hno
        · split at hno
          · rename_i hrec
            exact ihpr _ (by omega) hrec
          · simp at hno
          · split at hno
            simp at hno
        · split at hno
          · rename_i hrec
            exact ihpr _ (by omega) hrec
          · simp at hno
          · split at hno
            simp at hno
        · exact ihpr _ (by omega) hno
    -- parse_binary_primary
    · intro p hf hno
      rw [parse_binary_primary] at hno
      split at hno
      · simp at hno
      · rename_i t hpeek
        have hl := skip_token_length hpeek
        split at hno
        · split at hno
          simp at hno
        · split at hno
          simp at hno
        · split at hno
          simp at hno
        · split at hno
          · simp at hno
          · rename_i t2 hpeek2
            split at hno
            · exact ihce _ _ (by omega) hno
            · split at hno
              simp at hno
        · split at hno
          · rename_i hrec
            exact ihe _ (by omega) hrec
          · simp at hno
          · split at hno
            · simp at hno
            · simp at hno
        · split at hno
          · rename_i hrec
            exact ihb _ (by omega) hrec
          · simp at hno
          · split at hno
            simp at hno
        · simp at hno
    -- parse_call_expr
    · intro s p hf hno
      rw [parse_call_expr] at hno
      split at hno
      · simp at hno
      · rename_i t hpeek
        have hl := skip_token_length_of_peek hpeek
        split at hno
        · split at hno
          simp at hno
        · split at hno
          · rename_i hrec
            exact ihcp _ (by omega) hrec
          · simp at hno
          · split at hno
            simp at hno
    -- parse_call_params
    · intro p hf hno
      rw [parse_call_params] at hno
      split at hno
      · rename_i hrec
        exact ihe _ (by omega) hrec
      · simp at hno
      · rename_i e1 p1 hrec
        have hl := (parse_expr_shrinks hrec).2.1
        exact ihcpl _ _ (by omega) hno
    -- parse_call_params_loop
    · intro a p hf hno
      rw [parse_call_params_loop] at hno
      split at hno
      · simp at hno
      · rename_i t hpeek
        have hl := skip_token_length hpeek
        split at hno
        · split at hno
          · simp at hno
          · rename_i t2 hpeek2
            split at hno
            · split at hno
              · rename_i hrec
                exact ihe _ (by omega) hrec
              · simp at hno
              · rename_i e1 p1 hrec
                have hl2 := (parse_expr_shrinks hrec).2.1
                have hl3 := skip_token_length hpeek
                exact ihcpl _ _ (by omega) hno
            · exact ihcpl _ _ (by omega) hno
        · simp at hno
    -- parse_block
    · intro p hf hno
      rw [parse_block] at hno
      split at hno
      · simp at hno
      · rename_i p1 hskip
        have hl := skip_expected_token_length hskip
        exact ihbl _ _ (by omega) hno
    -- parse_block_loop
    · intro a p hf hno
      rw [parse_block_loop] at hno
      split at hno
      · simp at hno
      · rename_i t hpeek
        split at hno
        · split at hno
          · rename_i hrec
            exact ihe _ (by omega) hrec
          · simp at hno
          · rename_i e1 p1 hrec
            have hl := (parse_expr_shrinks hrec).2.1
            exact ihbl _ _ (by omega) hno
        · split at hno
          · simp at hno
          · simp at hno

/-- With the canonical fuel, the fueled entry point never runs out of fuel. -/
theorem parse_crate_fueled_isSome (ts : List Token) (n : Nat) :
    (parse_crate_fueled (parse_fuel ts) ⟨ts, n⟩).isSome = true := by
  rw [parse_crate_fueled]
  split
  · rename_i hno
    refine absurd hno ((fuel_master (parse_fuel ts)).1 ⟨ts, n⟩ ?_)
    rw [parse_fuel]
    show 10 * ts.length + 9 ≤ 10 * ts.length + 10
    omega
  · rfl
  · split <;> rfl

theorem parse_binary_primary_numlit (fuel n c : Nat) (rest : List Token) :
    parse_binary_primary (fuel + 1) ⟨tk (.NumLit n) :: rest, c⟩ =
      some (some (.mk (.NumLit n) (c + 1), ⟨rest, c + 1⟩)) := by
  simp [parse_binary_primary, peek_token, skip_token, get_next_id, tk]

theorem parse_binary_unary_numlit (fuel n c : Nat) (rest : List Token) :
    parse_binary_unary (fuel + 1) ⟨tk (.NumLit n) :: rest, c⟩ =
      parse_binary_primary fuel ⟨tk (.NumLit n) :: rest, c⟩ := by
  simp [parse_binary_unary, peek_token, tk]

theorem parse_binary_mul_pass {fuel : Nat} {p p1 : Parser} {lhs : Expr} {t : Token}
    (h : parse_binary_unary fuel p = some (some (lhs, p1)))
    (ht : peek_token p1 = some t) (hk : t.kind ≠ TokenKind.BinOp LexBinOp.Star) :
    parse_binary_mul (fuel + 1) p = some (some (lhs, p1)) := by
  rw [parse_binary_mul, h]
  rcases t with ⟨k⟩
  cases k <;> simp_all

theorem parse_binary_add_pass {fuel : Nat} {p p1 : Parser} {lhs : Expr} {t : Token}
    (h : parse_binary_mul fuel p = some (some (lhs, p1)))
    (ht : peek_token p1 = some t) (hk1 : t.kind ≠ TokenKind.BinOp LexBinOp.Plus)
    (hk2 : t.kind ≠ TokenKind.BinOp LexBinOp.Minus) :
    parse_binary_add (fuel + 1) p = some (some (lhs, p1)) := by
  rw [parse_binary_add, h]
  rcases t with ⟨k⟩
  cases k <;> simp_all

theorem parse_binary_relational_pass {fuel : Nat} {p p1 : Parser} {lhs : Expr} {t : Token}
    (h : parse_binary_add fuel p = some (some (lhs, p1)))
    (ht : peek_token p1 = some t) (hk1 : t.kind ≠ TokenKind.BinOp LexBinOp.Lt)
    (hk2 : t.kind ≠ TokenKind.BinOp LexBinOp.Gt) :
    parse_binary_relational (fuel + 1) p = some (some (lhs, p1)) := by
  rw [parse_binary_relational, h]
  rcases t with ⟨k⟩
  cases k <;> simp_all

theorem parse_binary_equality_pass {fuel : Nat} {p p1 : Parser} {lhs : Expr} {t : Token}
    (h : parse_binary_relational fuel p = some (some (lhs, p1)))
    (ht : peek_token p1 = some t) (hk1 : t.kind ≠ TokenKind.BinOp LexBinOp.Eq)
    (hk2 : t.kind ≠ TokenKind.BinOp LexBinOp.Ne) :
    parse_binary_equality (fuel + 1) p = some (some (lhs, p1)) := by
  rw [parse_binary_equality, h]
  rcases t with ⟨k⟩
  cases k <;> simp_all

theorem parse_assign_pass {fuel : Nat} {p p1 : Parser} {lhs : Expr} {t : Token}
    (h : parse_binary_equality fuel p = some (some (lhs, p1)))
    (ht : peek_token p1 = some t) (hk : t.kind ≠ TokenKind.Eq) :
    parse_assign (fuel + 1) p = some (some (lhs, p1)) := by
  rw [parse_assign, h]
  rcases t with ⟨k⟩
  cases k <;> simp_all

theorem parse_expr_to_assign {f : Nat} {p : Parser} {t : Token}
    (ht : peek_token p = some t) (hk1 : t.kind ≠ TokenKind.If)
    (hk2 : t.kind ≠ TokenKind.Return) :
    parse_expr (f + 1) p = parse_assign f p := by
  rw [parse_expr]
  rcases t with ⟨k⟩
  cases k <;> simp_all

theorem parse_binary_mul_step {fuel : Nat} {p p1 p2 : Parser} {lhs rhs : Expr}
    (h1 : parse_binary_unary fuel p = some (some (lhs, p1)))
    (ht : peek_token p1 = some (tk (.BinOp .Star)))
    (h2 : parse_binary_mul fuel (skip_token p1).2 = some (some (rhs, p2))) :
    parse_binary_mul (fuel + 1) p =
      some (some (.mk (.Binary .Mul lhs rhs) (p2.next_id + 1),
        { p2 with next_id := p2.next_id + 1 })) := by
  rw [parse_binary_mul, h1]
  simp [ht, h2, get_next_id, tk]

theorem parse_binary_add_step_plus {fuel : Nat} {p p1 p2 : Parser} {lhs rhs : Expr}
    (h1 : parse_binary_mul fuel p = some (some (lhs, p1)))
    (ht : peek_token p1 = some (tk (.BinOp .Plus)))
    (h2 : parse_binary_add fuel (skip_token p1).2 = some (some (rhs, p2))) :
    parse_binary_add (fuel + 1) p =
      some (some (.mk (.Binary .Add lhs rhs) (p2.next_id + 1),
        { p2 with next_id := p2.next_id + 1 })) := by
  rw [parse_binary_add, h1]
  simp [ht, h2, get_next_id, tk]

theorem parse_binary_add_step_minus {fuel : Nat} {p p1 p2 : Parser} {lhs rhs : Expr}
    (h1 : parse_binary_mul fuel p = some (some (lhs, p1)))
    (ht : peek_token p1 = some (tk (.BinOp .Minus)))
    (h2 : parse_binary_add fuel (skip_token p1).2 = some (some (rhs, p2))) :
    parse_binary_add (fuel + 1) p =
      some (some (.mk (.Binary .Sub lhs rhs) (p2.next_id + 1),
        { p2 with next_id := p2.next_id + 1 })) := by
  rw [parse_binary_add, h1]
  simp [ht, h2, get_next_id, tk]

theorem parse_binary_relational_step_lt {fuel : Nat} {p p1 p2 : Parser} {lhs rhs : Expr}
    (h1 : parse_binary_add fuel p = some (some (lhs, p1)))
    (ht : peek_token p1 = some (tk (.BinOp .Lt)))
    (h2 : parse_binary_relational fuel (skip_token p1).2 = some (some (rhs, p2))) :
    parse_binary_relational (fuel + 1) p =
      some (some (.mk (.Binary .Lt lhs rhs) (p2.next_id + 1),
        { p2 with next_id := p2.next_id + 1 })) := by
  rw [parse_binary_relational, h1]
  simp [ht, h2, get_next_id, tk]

theorem parse_binary_relational_step_gt {fuel : Nat} {p p1 p2 : Parser} {lhs rhs : Expr}
    (h1 : parse_binary_add fuel p = some (some (lhs, p1)))
    (ht : peek_token p1 = some (tk (.BinOp .Gt)))
    (h2 : parse_binary_relational fuel (skip_token p1).2 = some (some (rhs, p2))) :
    parse_binary_relational (fuel + 1) p =
      some (some (.mk (.Binary .Gt lhs rhs) (p2.next_id + 1),
        { p2 with next_id := p2.next_id + 1 })) := by
  rw [parse_binary_relational, h1]
  simp [ht, h2, get_next_id, tk]

theorem parse_binary_equality_step_eq {fuel : Nat} {p p1 p2 : Parser} {lhs rhs : Expr}
    (h1 : parse_binary_relational fuel p = some (some (lhs, p1)))
    (ht : peek_token p1 = some (tk (.BinOp .Eq)))
    (h2 : parse_binary_equality fuel (skip_token p1).2 = some (some (rhs, p2))) :
    parse_binary_equality (fuel + 1) p =
      some (some (.mk (.Binary .Eq lhs rhs) (p2.next_id + 1),
        { p2 with next_id := p2.next_id + 1 })) := by
  rw [parse_binary_equality, h1]
  simp [ht, h2, get_next_id, tk]

theorem parse_binary_equality_step_ne {fuel : Nat} {p p1 p2 : Parser} {lhs rhs : Expr}
    (h1 : parse_binary_relational fuel p = some (some (lhs, p1)))
    (ht : peek_token p1 = some (tk (.BinOp .Ne)))
    (h2 : parse_binary_equality fuel (skip_token p1).2 = some (some (rhs, p2))) :
    parse_binary_equality (fuel + 1) p =
      some (some (.mk (.Binary .Ne lhs rhs) (p2.next_id + 1),
        { p2 with next_id := p2.next_id + 1 })) := by
  rw [parse_binary_equality, h1]
  simp [ht, h2, get_next_id, tk]

/-- Tokens of an operator chain after its leading numeric literal:
operator, literal, operator, literal, ... -/
def chainRest : List (LexBinOp × Nat) → List Token
  | [] => []
  | (op, m) :: rest => tk (.BinOp op) :: tk (.NumLit m) :: chainRest rest

/-- Tokens of a same-level operator chain n0 op1 n1 op2 n2 ... -/
def chainToks (n : Nat) (ps : List (LexBinOp × Nat)) : List Token :=
  tk (.NumLit n) :: chainRest ps

/-- The source's translation of lexer operators to AST operators, as read off
the four binary rules of src/src/parse/parse_expr.rs. -/
def astOfLexOp : LexBinOp → BinOp
  | .Plus => .Add
  | .Minus => .Sub
  | .Star => .Mul
  | .Eq => .Eq
  | .Ne => .Ne
  | .Lt => .Lt
  | .Gt => .Gt

/-- The right-nested tree of a right-associative parse of a chain:
n0 op1 (n1 op2 (n2 ...)). -/
def rightChainShape : Nat → List (LexBinOp × Nat) → Shape
  | n, [] => .NumLit n
  | n, (op, m) :: rest => .Binary (astOfLexOp op) (.NumLit n) (rightChainShape m rest)

theorem chainRest_length (ps : List (LexBinOp × Nat)) :
    (chainRest ps).length = 2 * ps.length := by
  induction ps with
  | nil => rfl
  | cons hd tl ihtl =>
    rcases hd with ⟨op, m⟩
    simp [chainRest, ihtl]
    omega

theorem add_chain (ps : List (LexBinOp × Nat)) : ∀ fuel n c,
    (∀ x ∈ ps, x.1 = LexBinOp.Plus ∨ x.1 = LexBinOp.Minus) →
    20 * ps.length + 20 ≤ fuel →
    ∃ E c', parse_binary_add fuel ⟨chainToks n ps ++ [tk .Eof], c⟩ =
        some (some (E, ⟨[tk .Eof], c'⟩)) ∧ Expr.shape E = rightChainShape n ps := by
  induction ps with
  | nil =>
    intro fuel n c _ hf
    obtain ⟨f, rfl⟩ : ∃ f, fuel = f + 1 + 1 + 1 + 1 := ⟨fuel - 4, by omega⟩
    have hun := parse_binary_unary_numlit (f + 1) n c [tk .Eof]
    rw [parse_binary_primary_numlit f n c [tk .Eof]] at hun
    have hmul := parse_binary_mul_pass hun (t := tk .Eof) rfl (by simp [tk])
    have hadd := parse_binary_add_pass hmul (t := tk .Eof) rfl (by simp [tk]) (by simp [tk])
    exact ⟨_, _, by simpa [chainToks, chainRest] using hadd,
      by simp [Expr.shape, ExprKind.shape, rightChainShape]⟩
  | cons hd tl ihtl =>
    rcases hd with ⟨op, m⟩
    intro fuel n c hops hf
    obtain ⟨f, rfl⟩ : ∃ f, fuel = f + 1 + 1 + 1 + 1 := ⟨fuel - 4, by omega⟩
    have htl : ∀ x ∈ tl, x.1 = LexBinOp.Plus ∨ x.1 = LexBinOp.Minus := by
      intro x hx
      exact hops x (List.mem_cons_of_mem _ hx)
    have hbound : 20 * tl.length + 20 ≤ f + 1 + 1 + 1 := by
      simp only [List.length_cons] at hf
      omega
    obtain ⟨E, c', hE, hshape⟩ := ihtl (f + 1 + 1 + 1) m (c + 1) htl hbound
    rcases hops ⟨op, m⟩ (List.mem_cons_self _ _) with rfl | rfl
    · have hun := parse_binary_unary_numlit (f + 1) n c
        (tk (.BinOp .Plus) :: (chainToks m tl ++ [tk .Eof]))
      rw [parse_binary_primary_numlit f n c
        (tk (.BinOp .Plus) :: (chainToks m tl ++ [tk .Eof]))] at hun
      have hmul := parse_binary_mul_pass hun (t := tk (.BinOp .Plus)) rfl (by simp [tk])
      have hstep := parse_binary_add_step_plus hmul rfl hE
      refine ⟨_, c' + 1, by simpa [chainToks, chainRest] using hstep, ?_⟩
      simp [Expr.shape, ExprKind.shape, rightChainShape, hshape, astOfLexOp]
    · have hun := parse_binary_unary_numlit (f + 1) n c
        (tk (.BinOp .Minus) :: (chainToks m tl ++ [tk .Eof]))
      rw [parse_binary_primary_numlit f n c
        (tk (.BinOp .Minus) :: (chainToks m tl ++ [tk .Eof]))] at hun
      have hmul := parse_binary_mul_pass hun (t := tk (.BinOp .Minus)) rfl (by simp [tk])
      have hstep := parse_binary_add_step_minus hmul rfl hE
      refine ⟨_, c' + 1, by simpa [chainToks, chainRest] using hstep, ?_⟩
      simp [Expr.shape, ExprKind.shape, rightChainShape, hshape, astOfLexOp]

theorem mul_chain (ps : List (LexBinOp × Nat)) : ∀ fuel n c,
    (∀ x ∈ ps, x.1 = LexBinOp.Star) →
    20 * ps.length + 20 ≤ fuel →
    ∃ E c', parse_binary_mul fuel ⟨chainToks n ps ++ [tk .Eof], c⟩ =
        some (some (E, ⟨[tk .Eof], c'⟩)) ∧ Expr.shape E = rightChainShape n ps := by
  induction ps with
  | nil =>
    intro fuel n c _ hf
    obtain ⟨f, rfl⟩ : ∃ f, fuel = f + 1 + 1 + 1 := ⟨fuel - 3, by omega⟩
    have hun := parse_binary_unary_numlit (f + 1) n c [tk .Eof]
    rw [parse_binary_primary_numlit f n c [tk .Eof]] at hun
    have hmul := parse_binary_mul_pass hun (t := tk .Eof) rfl (by simp [tk])
    exact ⟨_, _, by simpa [chainToks, chainRest] using hmul,
      by simp [Expr.shape, ExprKind.shape, rightChainShape]⟩
  | cons hd tl ihtl =>
    rcases hd with ⟨op, m⟩
    intro fuel n c hops hf
    obtain ⟨f, rfl⟩ : ∃ f, fuel = f + 1 + 1 + 1 := ⟨fuel - 3, by omega⟩
    have htl : ∀ x ∈ tl, x.1 = LexBinOp.Star := by
      intro x hx
      exact hops x (List.mem_cons_of_mem _ hx)
    have hbound : 20 * tl.length + 20 ≤ f + 1 + 1 := by
      simp only [List.length_cons] at hf
      omega
    obtain ⟨E, c', hE, hshape⟩ := ihtl (f + 1 + 1) m (c + 1) htl hbound
    have rfl2 : op = LexBinOp.Star := hops ⟨op, m⟩ (List.mem_cons_self _ _)
    subst rfl2
    have hun := parse_binary_unary_numlit (f + 1) n c
      (tk (.BinOp .Star) :: (chainToks m tl ++ [tk .Eof]))
    rw [parse_binary_primary_numlit f n c
      (tk (.BinOp .Star) :: (chainToks m tl ++ [tk .Eof]))] at hun
    have hstep := parse_binary_mul_step hun rfl hE
    refine ⟨_, c' + 1, by simpa [chainToks, chainRest] using hstep, ?_⟩
    simp [Expr.shape, ExprKind.shape, rightChainShape, hshape, astOfLexOp]

theorem relational_chain (ps : List (LexBinOp × Nat)) : ∀ fuel n c,
    (∀ x ∈ ps, x.1 = LexBinOp.Lt ∨ x.1 = LexBinOp.Gt) →
    20 * ps.length + 20 ≤ fuel →
    ∃ E c', parse_binary_relational fuel ⟨chainToks n ps ++ [tk .Eof], c⟩ =
        some (some (E, ⟨[tk .Eof], c'⟩)) ∧ Expr.shape E = rightChainShape n ps := by
  induction ps with
  | nil =>
    intro fuel n c _ hf
    obtain ⟨f, rfl⟩ : ∃ f, fuel = f + 1 + 1 + 1 + 1 + 1 := ⟨fuel - 5, by omega⟩
    have hun := parse_binary_unary_numlit (f + 1) n c [tk .Eof]
    rw [parse_binary_primary_numlit f n c [tk .Eof]] at hun
    have hmul := parse_binary_mul_pass hun (t := tk .Eof) rfl (by simp [tk])
    have hadd := parse_binary_add_pass hmul (t := tk .Eof) rfl (by simp [tk]) (by simp [tk])
    have hrel := parse_binary_relational_pass hadd (t := tk .Eof) rfl (by simp [tk]) (by simp [tk])
    exact ⟨_, _, by simpa [chainToks, chainRest] using hrel,
      by simp [Expr.shape, ExprKind.shape, rightChainShape]⟩
  | cons hd tl ihtl =>
    rcases hd with ⟨op, m⟩
    intro fuel n c hops hf
    obtain ⟨f, rfl⟩ : ∃ f, fuel = f + 1 + 1 + 1 + 1 + 1 := ⟨fuel - 5, by omega⟩
    have htl : ∀ x ∈ tl, x.1 = LexBinOp.Lt ∨ x.1 = LexBinOp.Gt := by
      intro x hx
      exact hops x (List.mem_cons_of_mem _ hx)
    have hbound : 20 * tl.length + 20 ≤ f + 1 + 1 + 1 + 1 := by
      simp only [List.length_cons] at hf
      omega
    obtain ⟨E, c', hE, hshape⟩ := ihtl (f + 1 + 1 + 1 + 1) m (c + 1) htl hbound
    rcases hops ⟨op, m⟩ (List.mem_cons_self _ _) with rfl | rfl
    · have hun := parse_binary_unary_numlit (f + 1) n c
        (tk (.BinOp .Lt) :: (chainToks m tl ++ [tk .Eof]))
      rw [parse_binary_primary_numlit f n c
        (tk (.BinOp .Lt) :: (chainToks m tl ++ [tk .Eof]))] at hun
      have hmul := parse_binary_mul_pass hun (t := tk (.BinOp .Lt)) rfl (by simp [tk])
      have hadd := parse_binary_add_pass hmul (t := tk (.BinOp .Lt)) rfl
        (by simp [tk]) (by simp [tk])
      have hstep := parse_binary_relational_step_lt hadd rfl hE
      refine ⟨_, c' + 1, by simpa [chainToks, chainRest] using hstep, ?_⟩
      simp [Expr.shape, ExprKind.shape, rightChainShape, hshape, astOfLexOp]
    · have hun := parse_binary_unary_numlit (f + 1) n c
        (tk (.BinOp .Gt) :: (chainToks m tl ++ [tk .Eof]))
      rw [parse_binary_primary_numlit f n c
        (tk (.BinOp .Gt) :: (chainToks m tl ++ [tk .Eof]))] at hun
      have hmul := parse_binary_mul_pass hun (t := tk (.BinOp .Gt)) rfl (by simp [tk])
      have hadd := parse_binary_add_pass hmul (t := tk (.BinOp .Gt)) rfl
        (by simp [tk]) (by simp [tk])
      have hstep := parse_binary_relational_step_gt hadd rfl hE
      refine ⟨_, c' + 1, by simpa [chainToks, chainRest] using hstep, ?_⟩
      simp [Expr.shape, ExprKind.shape, rightChainShape, hshape, astOfLexOp]

theorem equality_chain (ps : List (LexBinOp × Nat)) : ∀ fuel n c,
    (∀ x ∈ ps, x.1 = LexBinOp.Eq ∨ x.1 = LexBinOp.Ne) →
    20 * ps.length + 20 ≤ fuel →
    ∃ E c', parse_binary_equality fuel ⟨chainToks n ps ++ [tk .Eof], c⟩ =
        some (some (E, ⟨[tk .Eof], c'⟩)) ∧ Expr.shape E = rightChainShape n ps := by
  induction ps with
  | nil =>
    intro fuel n c _ hf
    obtain ⟨f, rfl⟩ : ∃ f, fuel = f + 1 + 1 + 1 + 1 + 1 + 1 := ⟨fuel - 6, by omega⟩
    have hun := parse_binary_unary_numlit (f + 1) n c [tk .Eof]
    rw [parse_binary_primary_numlit f n c [tk .Eof]] at hun
    have hmul := parse_binary_mul_pass hun (t := tk .Eof) rfl (by simp [tk])
    have hadd := parse_binary_add_pass hmul (t := tk .Eof) rfl (by simp [tk]) (by simp [tk])
    have hrel := parse_binary_relational_pass hadd (t := tk .Eof) rfl (by simp [tk]) (by simp [tk])
    have heqp := parse_binary_equality_pass hrel (t := tk .Eof) rfl (by simp [tk]) (by simp [tk])
    exact ⟨_, _, by simpa [chainToks, chainRest] using heqp,
      by simp [Expr.shape, ExprKind.shape, rightChainShape]⟩
  | cons hd tl ihtl =>
    rcases hd with ⟨op, m⟩
    intro fuel n c hops hf
    obtain ⟨f, rfl⟩ : ∃ f, fuel = f + 1 + 1 + 1 + 1 + 1 + 1 := ⟨fuel - 6, by omega⟩
    have htl : ∀ x ∈ tl, x.1 = LexBinOp.Eq ∨ x.1 = LexBinOp.Ne := by
      intro x hx
      exact hops x (List.mem_cons_of_mem _ hx)
    have hbound : 20 * tl.length + 20 ≤ f + 1 + 1 + 1 + 1 + 1 := by
      simp only [List.length_cons] at hf
      omega
    obtain ⟨E, c', hE, hshape⟩ := ihtl (f + 1 + 1 + 1 + 1 + 1) m (c + 1) htl hbound
    rcases hops ⟨op, m⟩ (List.mem_cons_self _ _) with rfl | rfl
    · have hun := parse_binary_unary_numlit (f + 1) n c
        (tk (.BinOp .Eq) :: (chainToks m tl ++ [tk .Eof]))
      rw [parse_binary_primary_numlit f n c
        (tk (.BinOp .Eq) :: (chainToks m tl ++ [tk .Eof]))] at hun
      have hmul := parse_binary_mul_pass hun (t := tk (.BinOp .Eq)) rfl (by simp [tk])
      have hadd := parse_binary_add_pass hmul (t := tk (.BinOp .Eq)) rfl
        (by simp [tk]) (by simp [tk])
      have hrel := parse_binary_relational_pass hadd (t := tk (.BinOp .Eq)) rfl
        (by simp [tk]) (by simp [tk])
      have hstep := parse_binary_equality_step_eq hrel rfl hE
      refine ⟨_, c' + 1, by simpa [chainToks, chainRest] using hstep, ?_⟩
      simp [Expr.shape, ExprKind.shape, rightChainShape, hshape, astOfLexOp]
    · have hun := parse_binary_unary_numlit (f + 1) n c
        (tk (.BinOp .Ne) :: (chainToks m tl ++ [tk .Eof]))
      rw [parse_binary_primary_numlit f n c
        (tk (.BinOp .Ne) :: (chainToks m tl ++ [tk .Eof]))] at hun
      have hmul := parse_binary_mul_pass hun (t := tk (.BinOp .Ne)) rfl (by simp [tk])
      have hadd := parse_binary_add_pass hmul (t := tk (.BinOp .Ne)) rfl
        (by simp [tk]) (by simp [tk])
      have hrel := parse_binary_relational_pass hadd (t := tk (.BinOp .Ne)) rfl
        (by simp [tk]) (by simp [tk])
      have hstep := parse_binary_equality_step_ne hrel rfl hE
      refine ⟨_, c' + 1, by simpa [chainToks, chainRest] using hstep, ?_⟩
      simp [Expr.shape, ExprKind.shape, rightChainShape, hshape, astOfLexOp]

theorem chainToks_length (n : Nat) (ps : List (LexBinOp × Nat)) :
    (chainToks n ps ++ [tk .Eof]).length = 2 * ps.length + 2 := by
  simp [chainToks, chainRest_length]

theorem crate_shape_add_chain (n : Nat) (ps : List (LexBinOp × Nat))
    (hops : ∀ x ∈ ps, x.1 = LexBinOp.Plus ∨ x.1 = LexBinOp.Minus) :
    parse_crate_shape (chainToks n ps ++ [tk .Eof]) = some (rightChainShape n ps) := by
  have hF : parse_fuel (chainToks n ps ++ [tk .Eof]) = 20 * ps.length + 30 := by
    rw [parse_fuel, chainToks_length]
    omega
  obtain ⟨f, hf⟩ : ∃ f, parse_fuel (chainToks n ps ++ [tk .Eof]) = f + 1 + 1 + 1 + 1 :=
    ⟨parse_fuel (chainToks n ps ++ [tk .Eof]) - 4, by omega⟩
  obtain ⟨E, c', hE, hshape⟩ := add_chain ps f n 0 hops (by omega)
  have hrel := parse_binary_relational_pass hE (t := tk .Eof) rfl (by simp [tk]) (by simp [tk])
  have heq := parse_binary_equality_pass hrel (t := tk .Eof) rfl (by simp [tk]) (by simp [tk])
  have has := parse_assign_pass heq (t := tk .Eof) rfl (by simp [tk])
  have hex := parse_expr_to_assign (f := f + 1 + 1 + 1) (p := ⟨chainToks n ps ++ [tk .Eof], 0⟩)
    (t := tk (.NumLit n)) (by simp [peek_token, chainToks]) (by simp [tk]) (by simp [tk])
  rw [has] at hex
  rw [parse_crate_shape, parse_crate, hf, parse_crate_fueled, hex]
  simp [at_eof, peek_token, tk, hshape]

theorem crate_shape_mul_chain (n : Nat) (ps : List (LexBinOp × Nat))
    (hops : ∀ x ∈ ps, x.1 = LexBinOp.Star) :
    parse_crate_shape (chainToks n ps ++ [tk .Eof]) = some (rightChainShape n ps) := by
  have hF : parse_fuel (chainToks n ps ++ [tk .Eof]) = 20 * ps.length + 30 := by
    rw [parse_fuel, chainToks_length]
    omega
  obtain ⟨f, hf⟩ : ∃ f, parse_fuel (chainToks n ps ++ [tk .Eof]) = f + 1 + 1 + 1 + 1 + 1 :=
    ⟨parse_fuel (chainToks n ps ++ [tk .Eof]) - 5, by omega⟩
  obtain ⟨E, c', hE, hshape⟩ := mul_chain ps f n 0 hops (by omega)
  have hadd := parse_binary_add_pass hE (t := tk .Eof) rfl (by simp [tk]) (by simp [tk])
  have hrel := parse_binary_relational_pass hadd (t := tk .Eof) rfl (by simp [tk]) (by simp [tk])
  have heq := parse_binary_equality_pass hrel (t := tk .Eof) rfl (by simp [tk]) (by simp [tk])
  have has := parse_assign_pass heq (t := tk .Eof) rfl (by simp [tk])
  have hex := parse_expr_to_assign (f := f + 1 + 1 + 1 + 1)
    (p := ⟨chainToks n ps ++ [tk .Eof], 0⟩)
    (t := tk (.NumLit n)) (by simp [peek_token, chainToks]) (by simp [tk]) (by simp [tk])
  rw [has] at hex
  rw [parse_crate_shape, parse_crate, hf, parse_crate_fueled, hex]
  simp [at_eof, peek_token, tk, hshape]

theorem crate_shape_relational_chain (n : Nat) (ps : List (LexBinOp × Nat))
    (hops : ∀ x ∈ ps, x.1 = LexBinOp.Lt ∨ x.1 = LexBinOp.Gt) :
    parse_crate_shape (chainToks n ps ++ [tk .Eof]) = some (rightChainShape n ps) := by
  have hF : parse_fuel (chainToks n ps ++ [tk .Eof]) = 20 * ps.length + 30 := by
    rw [parse_fuel, chainToks_length]
    omega
  obtain ⟨f, hf⟩ : ∃ f, parse_fuel (chainToks n ps ++ [tk .Eof]) = f + 1 + 1 + 1 :=
    ⟨parse_fuel (chainToks n ps ++ [tk .Eof]) - 3, by omega⟩
  obtain ⟨E, c', hE, hshape⟩ := relational_chain ps f n 0 hops (by omega)
  have heq := parse_binary_equality_pass hE (t := tk .Eof) rfl (by simp [tk]) (by simp [tk])
  have has := parse_assign_pass heq (t := tk .Eof) rfl (by simp [tk])
  have hex := parse_expr_to_assign (f := f + 1 + 1) (p := ⟨chainToks n ps ++ [tk .Eof], 0⟩)
    (t := tk (.NumLit n)) (by simp [peek_token, chainToks]) (by simp [tk]) (by simp [tk])
  rw [has] at hex
  rw [parse_crate_shape, parse_crate, hf, parse_crate_fueled, hex]
  simp [at_eof, peek_token, tk, hshape]

theorem crate_shape_equality_chain (n : Nat) (ps : List (LexBinOp × Nat))
    (hops : ∀ x ∈ ps, x.1 = LexBinOp.Eq ∨ x.1 = LexBinOp.Ne) :
    parse_crate_shape (chainToks n ps ++ [tk .Eof]) = some (rightChainShape n ps) := by
  have hF : parse_fuel (chainToks n ps ++ [tk .Eof]) = 20 * ps.length + 30 := by
    rw [parse_fuel, chainToks_length]
    omega
  obtain ⟨f, hf⟩ : ∃ f, parse_fuel (chainToks n ps ++ [tk .Eof]) = f + 1 + 1 :=
    ⟨parse_fuel (chainToks n ps ++ [tk .Eof]) - 2, by omega⟩
  obtain ⟨E, c', hE, hshape⟩ := equality_chain ps f n 0 hops (by omega)
  have has := parse_assign_pass hE (t := tk .Eof) rfl (by simp [tk])
  have hex := parse_expr_to_assign (f := f + 1) (p := ⟨chainToks n ps ++ [tk .Eof], 0⟩)
    (t := tk (.NumLit n)) (by simp [peek_token, chainToks]) (by simp [tk]) (by simp [tk])
  rw [has] at hex
  rw [parse_crate_shape, parse_crate, hf, parse_crate_fueled, hex]
  simp [at_eof, peek_token, tk, hshape]

/-- Inversion of the entry point: a returned tree comes from a successful
parse_expr run that stopped at the end-of-stream marker. -/
theorem parse_crate_inv {ts : List Token} {e : Expr} (h : parse_crate ts = some e) :
    ∃ q, parse_expr (parse_fuel ts) ⟨ts, 0⟩ = some (some (e, q)) ∧ at_eof q = true := by
  rw [parse_crate, parse_crate_fueled] at h
  split at h
  · simp at h
  · simp at h
  · rename_i e0 q hrun
    split at h
    · rename_i heof
      simp only [Option.getD_some, Option.some.injEq] at h
      subst h
      exact ⟨q, hrun, heof⟩
    · simp at h

theorem head_mem_of_peek {p : Parser} {t : Token} (h : peek_token p = some t) :
    t ∈ p.toks := by
  rw [peek_token_toks h]
  exact List.mem_cons_self _ _

theorem at_eof_false_of_no_eof {ts : List Token} {q : Parser} (hsub : q.toks <:+ ts)
    (hno : ∀ t ∈ ts, t.kind ≠ TokenKind.Eof) : at_eof q = false := by
  rw [at_eof]
  cases hq : peek_token q with
  | none => rfl
  | some t =>
    have ht : t ∈ q.toks := head_mem_of_peek hq
    have := hno t (hsub.subset ht)
    simp [this]

/-- Structure of every successfully parsed if-expression: the node is an If
whose then branch is an explicit Block wrapper, and whose else branch, when
present, is either a Block wrapper or another If. -/
theorem if_expr_structure : ∀ fuel (p : Parser) (e : Expr) (q : Parser),
    parse_if_expr fuel p = some (some (e, q)) →
    ∃ cond blk then_id els if_id,
      e = .mk (.If cond (.mk (.Block blk) then_id) els) if_id ∧
      (els = none ∨ (∃ es bid, els = some (.mk (.Block es) bid)) ∨
        (∃ c2 t2 e2 id2, els = some (.mk (.If c2 t2 e2) id2))) := by
  intro fuel
  induction fuel with
  | zero =>
    intro p e q h
    simp [parse_if_expr] at h
  | succ fuel ih =>
    intro p e q h
    rw [parse_if_expr] at h
    split at h
    · simp at h
    · rename_i p1 hskip
      split at h
      · simp at h
      · simp at h
      · rename_i cond p2 hcond
        split at h
        · simp at h
        · simp at h
        · rename_i blk p3 hblk
          split at h
          · simp at h
          · rename_i t hpeek
            split at h
            · rename_i hElse
              split at h
              · simp at h
              · rename_i t2 hpeek2
                split at h
                · split at h
                  · simp at h
                  · simp at h
                  · rename_i e2 p4 hrec
                    split at h
                    rename_i then_id p5 hg1
                    split at h
                    rename_i if_id p6 hg2
                    simp only [Option.some.injEq, Prod.mk.injEq] at h
                    obtain ⟨rfl, rfl⟩ := h
                    obtain ⟨c2, blk2, tid2, els2, iid2, he2, -⟩ := ih _ _ _ hrec
                    refine ⟨cond, blk, then_id, some e2, if_id, rfl, Or.inr (Or.inr ?_)⟩
                    exact ⟨c2, .mk (.Block blk2) tid2, els2, iid2, by rw [he2]⟩
                · split at h
                  · simp at h
                  · simp at h
                  · rename_i blk2 p4 hrec
                    split at h
                    rename_i i0 p5 hg0
                    split at h
                    rename_i then_id p6 hg1
                    split at h
                    rename_i if_id p7 hg2
                    simp only [Option.some.injEq, Prod.mk.injEq] at h
                    obtain ⟨rfl, rfl⟩ := h
                    exact ⟨cond, blk, then_id, some (.mk (.Block blk2) i0), if_id, rfl,
                      Or.inr (Or.inl ⟨blk2, i0, rfl⟩)⟩
            · split at h
              rename_i then_id p4 hg1
              split at h
              rename_i if_id p5 hg2
              simp only [Option.some.injEq, Prod.mk.injEq] at h
              obtain ⟨rfl, rfl⟩ := h
              exact ⟨cond, blk, then_id, none, if_id, rfl, Or.inl rfl⟩

/-- The id of a parsed If node is allocated after its condition and both
branches: it strictly exceeds every id inside them. -/
theorem if_node_id_greatest {fuel : Nat} {p q : Parser} {e cond tb : Expr}
    {els : Option Expr} {i : Nat}
    (h : parse_if_expr fuel p = some (some (e, q)))
    (he : e = .mk (.If cond tb els) i) :
    (∀ j ∈ idsOf cond, j < i) ∧ (∀ j ∈ idsOf tb, j < i) ∧
      (∀ x, els = some x → ∀ j ∈ idsOf x, j < i) := by
  cases fuel with
  | zero => simp [parse_if_expr] at h
  | succ fuel =>
    rw [parse_if_expr] at h
    split at h
    · simp at h
    · rename_i p1 hskip
      split at h
      · simp at h
      · simp at h
      · rename_i cond0 p2 hcond
        have bA := ((ids_master fuel).1 _ _ _ hcond).2
        split at h
        · simp at h
        · simp at h
        · rename_i blk p3 hblk
          have bB := ((ids_master fuel).2.2.2.2.2.2.2.2.2.2.2.2.1 _ _ _ hblk).2
          have mB : p2.next_id ≤ p3.next_id := (parse_block_shrinks hblk).2.2
          split at h
          · simp at h
          · rename_i t hpeek
            split at h
            · rename_i hElse
              split at h
              · simp at h
              · rename_i t2 hpeek2
                split at h
                · split at h
                  · simp at h
                  · simp at h
                  · rename_i e2 p4 hrec
                    have bC := ((ids_master fuel).2.1 _ _ _ hrec).2
                    rw [skip_token_next_id] at bC
                    have mC : p3.next_id ≤ p4.next_id := by
                      have := (parse_if_expr_shrinks hrec).2.2
                      rwa [skip_token_next_id] at this
                    split at h
                    rename_i then_id p5 hg1
                    split at h
                    rename_i if_id p6 hg2
                    simp only [Option.some.injEq, Prod.mk.injEq] at h
                    obtain ⟨rfl, rfl⟩ := h
                    obtain ⟨hi1, hq1, -⟩ := get_next_id_spec hg1
                    obtain ⟨hi2, hq2, -⟩ := get_next_id_spec hg2
                    injection he with hk hi
                    injection hk with h1 h2 h3
                    subst h1
                    subst h2
                    subst h3
                    subst hi
                    refine ⟨?_, ?_, ?_⟩
                    · intro j hj
                      have := bA j hj
                      omega
                    · intro j hj
                      simp only [idsOf, idsOfKind] at hj
                      rcases List.mem_cons.1 hj with rfl | hj
                      · omega
                      · have := bB j hj
                        omega
                    · intro x hx j hj
                      rw [Option.some_inj] at hx
                      subst hx
                      have := bC j hj
                      omega
                · split at h
                  · simp at h
                  · simp at h
                  · rename_i blk2 p4 hrec
                    have bC := ((ids_master fuel).2.2.2.2.2.2.2.2.2.2.2.2.1 _ _ _ hrec).2
                    rw [skip_token_next_id] at bC
                    have mC : p3.next_id ≤ p4.next_id := by
                      have := (parse_block_shrinks hrec).2.2
                      rwa [skip_token_next_id] at this
                    split at h
                    rename_i i0 p5 hg0
                    split at h
                    rename_i then_id p6 hg1
                    split at h
                    rename_i if_id p7 hg2
                    simp only [Option.some.injEq, Prod.mk.injEq] at h
                    obtain ⟨rfl, rfl⟩ := h
                    obtain ⟨hi0, hq0, -⟩ := get_next_id_spec hg0
                    obtain ⟨hi1, hq1, -⟩ := get_next_id_spec hg1
                    obtain ⟨hi2, hq2, -⟩ := get_next_id_spec hg2
                    injection he with hk hi
                    injection hk with h1 h2 h3
                    subst h1
                    subst h2
                    subst h3
                    subst hi
                    refine ⟨?_, ?_, ?_⟩
                    · intro j hj
                      have := bA j hj
                      omega
                    · intro j hj
                      simp only [idsOf, idsOfKind] at hj
                      rcases List.mem_cons.1 hj with rfl | hj
                      · omega
                      · have := bB j hj
                        omega
                    · intro x hx j hj
                      rw [Option.some_inj] at hx
                      subst hx
                      simp only [idsOf, idsOfKind] at hj
                      rcases List.mem_cons.1 hj with rfl | hj
                      · omega
                      · have := bC j hj
                        omega
            · split at h
              rename_i then_id p4 hg1
              split at h
              rename_i if_id p5 hg2
              simp only [Option.some.injEq, Prod.mk.injEq] at h
              obtain ⟨rfl, rfl⟩ := h
              obtain ⟨hi1, hq1, -⟩ := get_next_id_spec hg1
              obtain ⟨hi2, hq2, -⟩ := get_next_id_spec hg2
              injection he with hk hi
              injection hk with h1 h2 h3
              subst h1
              subst h2
              subst h3
              subst hi
              refine ⟨?_, ?_, ?_⟩
              · intro j hj
                have := bA j hj
                omega
              · intro j hj
                simp only [idsOf, idsOfKind] at hj
                rcases List.mem_cons.1 hj with rfl | hj
                · omega
                · have := bB j hj
                  omega
              · intro x hx
                simp at hx

/-- Claim C1 (code bug evaluation): the claim states that a missing closing
parenthesis of a call's argument list aborts the whole parse with absence,
but parse_call_expr (src/src/parse/parse_expr.rs line 267) discards the
result of skip_expected_token, so the stream f ( 1 eof — with no closing
parenthesis at all — is accepted and yields Call(f, [1]). -/
theorem C1_call_missing_close_paren_accepted :
    parse_crate_shape [tk (.Ident "f"), tk .OpenParen, tk (.NumLit 1), tk .Eof] =
      some (.Call "f" [.NumLit 1]) := rfl

/-- Claim C2: chained operators of one precedence level parse
right-associatively: the token stream 1 - 2 - 3 produces
Binary(Sub, NumLit 1, Binary(Sub, NumLit 2, NumLit 3)), and for every chain
of plus/minus operators, of star, of equality operators, and of comparison
operators at one level the parser
produces the right-nested tree. -/
theorem C2_right_associative_chains :
    (parse_crate_shape [tk (.NumLit 1), tk (.BinOp .Minus), tk (.NumLit 2),
        tk (.BinOp .Minus), tk (.NumLit 3), tk .Eof] =
      some (.Binary .Sub (.NumLit 1) (.Binary .Sub (.NumLit 2) (.NumLit 3))))
  ∧ (∀ n ps, (∀ x ∈ ps, x.1 = LexBinOp.Plus ∨ x.1 = LexBinOp.Minus) →
      parse_crate_shape (chainToks n ps ++ [tk .Eof]) = some (rightChainShape n ps))
  ∧ (∀ n ps, (∀ x ∈ ps, x.1 = LexBinOp.Star) →
      parse_crate_shape (chainToks n ps ++ [tk .Eof]) = some (rightChainShape n ps))
  ∧ (∀ n ps, (∀ x ∈ ps, x.1 = LexBinOp.Eq ∨ x.1 = LexBinOp.Ne) →
      parse_crate_shape (chainToks n ps ++ [tk .Eof]) = some (rightChainShape n ps))
  ∧ (∀ n ps, (∀ x ∈ ps, x.1 = LexBinOp.Lt ∨ x.1 = LexBinOp.Gt) →
      parse_crate_shape (chainToks n ps ++ [tk .Eof]) = some (rightChainShape n ps)) :=
  ⟨rfl, fun n ps h => crate_shape_add_chain n ps h,
    fun n ps h => crate_shape_mul_chain n ps h,
    fun n ps h => crate_shape_equality_chain n ps h,
    fun n ps h => crate_shape_relational_chain n ps h⟩

/-- Witness for C2: the add-level chain statement applied to 1 - 2 - 3. -/
theorem C2_right_associative_chains_witness :
    parse_crate_shape (chainToks 1 [(LexBinOp.Minus, 2), (LexBinOp.Minus, 3)] ++ [tk .Eof]) =
      some (.Binary .Sub (.NumLit 1) (.Binary .Sub (.NumLit 2) (.NumLit 3))) := by
  have h := C2_right_associative_chains.2.1 1 [(LexBinOp.Minus, 2), (LexBinOp.Minus, 3)]
    (by decide)
  simpa [rightChainShape, astOfLexOp] using h

/-- Claim C3: the entry point returns the root expression only when the
whole input is consumed down to the end-of-stream marker; if the token
after a structurally complete expression is not the marker, parse_crate
returns absence. -/
theorem C3_leftover_tokens_rejected (ts : List Token) (e : Expr) (q : Parser)
    (h : parse_expr (parse_fuel ts) ⟨ts, 0⟩ = some (some (e, q)))
    (hne : at_eof q = false) : parse_crate ts = none := by
  rw [parse_crate, parse_crate_fueled, h]
  simp [hne]

/-- Witness for C3: the stream 1 2 eof parses the expression 1 and then
fails on the leftover literal 2. -/
theorem C3_leftover_tokens_rejected_witness :
    parse_crate [tk (.NumLit 1), tk (.NumLit 2), tk .Eof] = none :=
  C3_leftover_tokens_rejected [tk (.NumLit 1), tk (.NumLit 2), tk .Eof]
    (.mk (.NumLit 1) 1) ⟨[tk (.NumLit 2), tk .Eof], 1⟩ rfl rfl

/-- Counterexample for C4: the claim says any comma sequence outside the
language expr ("," expr)* ","? is rejected, but f ( 1 , , 2 ) — with a
doubled comma — is accepted as Call(f, [1, 2]). -/
theorem C4_double_comma_accepted :
    parse_crate_shape [tk (.Ident "f"), tk .OpenParen, tk (.NumLit 1), tk .Comma,
      tk .Comma, tk (.NumLit 2), tk .CloseParen, tk .Eof] =
      some (.Call "f" [.NumLit 1, .NumLit 2]) := rfl

/-- Claim C4 as amended: the argument-list loop requires one expression once
a non-close-paren token is seen and then, after each comma, parses another
expression only when one starts, so single separating commas and one
trailing comma behave as specified — f(1, 2,) gives Call(f, [1, 2]) — but
repeated commas and repeated trailing commas are skipped rather than
rejected, while a leading comma still fails. -/
theorem C4_call_args_language_amended :
    (parse_crate_shape [tk (.Ident "f"), tk .OpenParen, tk (.NumLit 1), tk .Comma,
        tk (.NumLit 2), tk .Comma, tk .CloseParen, tk .Eof] =
      some (.Call "f" [.NumLit 1, .NumLit 2]))
  ∧ (parse_crate_shape [tk (.Ident "f"), tk .OpenParen, tk .CloseParen, tk .Eof] =
      some (.Call "f" []))
  ∧ (parse_crate_shape [tk (.Ident "f"), tk .OpenParen, tk (.NumLit 1), tk .Comma,
        tk .Comma, tk (.NumLit 2), tk .CloseParen, tk .Eof] =
      some (.Call "f" [.NumLit 1, .NumLit 2]))
  ∧ (parse_crate_shape [tk (.Ident "f"), tk .OpenParen, tk .Comma, tk (.NumLit 1),
        tk .CloseParen, tk .Eof] = none)
  ∧ (parse_crate_shape [tk (.Ident "f"), tk .OpenParen, tk (.NumLit 1), tk .Comma,
        tk .Comma, tk .CloseParen, tk .Eof] = some (.Call "f" [.NumLit 1])) :=
  ⟨rfl, rfl, rfl, rfl, rfl⟩

/-- Claim C5: every successfully parsed if-expression wraps its then branch
in an explicit Block node, and its else branch is either absent, a Block
wrapper, or an unwrapped nested If; moreover the spec's example
if true { 1 } else { 2 } produces
If(BoolLit true, Block [NumLit 1], some (Block [NumLit 2])). -/
theorem C5_if_branches_wrapped :
    (∀ fuel (p : Parser) (e : Expr) (q : Parser),
      parse_if_expr fuel p = some (some (e, q)) →
      ∃ cond blk then_id els if_id,
        e = .mk (.If cond (.mk (.Block blk) then_id) els) if_id ∧
        (els = none ∨ (∃ es bid, els = some (.mk (.Block es) bid)) ∨
          (∃ c2 t2 e2 id2, els = some (.mk (.If c2 t2 e2) id2))))
  ∧ parse_crate_shape [tk .If, tk .True, tk .OpenBrace, tk (.NumLit 1), tk .CloseBrace,
      tk .Else, tk .OpenBrace, tk (.NumLit 2), tk .CloseBrace, tk .Eof] =
      some (.If (.BoolLit true) (.Block [.NumLit 1]) (some (.Block [.NumLit 2]))) :=
  ⟨if_expr_structure, rfl⟩

/-- Witness for C5: the structural statement applied to the concrete parse
of if true { 1 } else { 2 }. -/
theorem C5_if_branches_wrapped_witness :
    ∃ cond blk then_id els if_id,
      Expr.mk (.If (.mk (.BoolLit true) 1) (.mk (.Block [.mk (.NumLit 1) 2]) 5)
          (some (.mk (.Block [.mk (.NumLit 2) 3]) 4))) 6 =
        .mk (.If cond (.mk (.Block blk) then_id) els) if_id ∧
      (els = none ∨ (∃ es bid, els = some (.mk (.Block es) bid)) ∨
        (∃ c2 t2 e2 id2, els = some (.mk (.If c2 t2 e2) id2))) :=
  C5_if_branches_wrapped.1 50
    ⟨[tk .If, tk .True, tk .OpenBrace, tk (.NumLit 1), tk .CloseBrace,
      tk .Else, tk .OpenBrace, tk (.NumLit 2), tk .CloseBrace, tk .Eof], 0⟩
    (.mk (.If (.mk (.BoolLit true) 1) (.mk (.Block [.mk (.NumLit 1) 2]) 5)
      (some (.mk (.Block [.mk (.NumLit 2) 3]) 4))) 6)
    ⟨[tk .Eof], 6⟩ rfl

/-- Claim C6: the id of the If node itself is drawn from the allocator after
the condition, the then branch and any else branch are fully parsed, so it
strictly exceeds every id inside them. -/
theorem C6_if_node_id_allocated_last {f : Nat} {p q : Parser} {e cond tb : Expr}
    {els : Option Expr} {i : Nat}
    (h : parse_if_expr f p = some (some (e, q)))
    (he : e = .mk (.If cond tb els) i) :
    (∀ j ∈ idsOf cond, j < i) ∧ (∀ j ∈ idsOf tb, j < i) ∧
      (∀ x, els = some x → ∀ j ∈ idsOf x, j < i) :=
  if_node_id_greatest h he

/-- Witness for C6: the concrete parse of if true { 1 } else { 2 }, whose If
node receives id 6, larger than every id in its condition and branches. -/
theorem C6_if_node_id_allocated_last_witness :
    (∀ j ∈ idsOf (.mk (.BoolLit true) 1), j < 6)
  ∧ (∀ j ∈ idsOf (.mk (.Block [.mk (.NumLit 1) 2]) 5), j < 6)
  ∧ (∀ x, (some (.mk (.Block [.mk (.NumLit 2) 3]) 4) : Option Expr) = some x →
      ∀ j ∈ idsOf x, j < 6) :=
  C6_if_node_id_allocated_last (f := 50)
    (p := ⟨[tk .If, tk .True, tk .OpenBrace, tk (.NumLit 1), tk .CloseBrace,
      tk .Else, tk .OpenBrace, tk (.NumLit 2), tk .CloseBrace, tk .Eof], 0⟩)
    (q := ⟨[tk .Eof], 6⟩) rfl rfl

/-- Claim C7: in any tree returned by a successful parse all node ids are
pairwise distinct positive integers (the allocator is consulted exactly
once per constructed node, starting from counter zero). -/
theorem C7_node_ids_distinct (ts : List Token) (e : Expr)
    (h : parse_crate ts = some e) :
    (idsOf e).Nodup ∧ ∀ i ∈ idsOf e, 0 < i := by
  obtain ⟨q, hrun, -⟩ := parse_crate_inv h
  obtain ⟨n, b⟩ := (ids_master (parse_fuel ts)).1 _ _ _ hrun
  exact ⟨n, fun i hi => (b i hi).1⟩

/-- Witness for C7: the parse of the stream 1 eof. -/
theorem C7_node_ids_distinct_witness :
    (idsOf (.mk (.NumLit 1) 1)).Nodup ∧ ∀ i ∈ idsOf (.mk (.NumLit 1) 1), 0 < i :=
  C7_node_ids_distinct [tk (.NumLit 1), tk .Eof] (.mk (.NumLit 1) 1) rfl

/-- Claim C8: multiplication binds tighter than addition: the token stream
1 + 2 * 3 produces Binary(Add, NumLit 1, Binary(Mul, NumLit 2, NumLit 3)). -/
theorem C8_multiplication_binds_tighter :
    parse_crate_shape [tk (.NumLit 1), tk (.BinOp .Plus), tk (.NumLit 2),
      tk (.BinOp .Star), tk (.NumLit 3), tk .Eof] =
      some (.Binary .Add (.NumLit 1) (.Binary .Mul (.NumLit 2) (.NumLit 3))) := rfl

/-- Claim C9: for every finite token stream the parse entry point
terminates: with the canonical fuel the fueled computation never runs out
of fuel, so it returns success or absence after finitely many steps. -/
theorem C9_parser_terminates (ts : List Token) :
    (parse_crate_fueled (parse_fuel ts) ⟨ts, 0⟩).isSome = true :=
  parse_crate_fueled_isSome ts 0

/-- Claim C10: when the stream is truncated (peek yields absence instead of
an end-of-stream marker) at the operator-lookahead point after a left
operand has been parsed, the rule returns absence and discards the operand
(shown for the innermost binary level, the only one whose lookahead point a
truncation can reach); consequently the parser never returns success on a
stream containing no end-of-stream marker. -/
theorem C10_truncated_stream_never_succeeds :
    (∀ fuel (p s1 : Parser) (lhs : Expr),
      parse_binary_unary fuel p = some (some (lhs, s1)) → s1.toks = [] →
      parse_binary_mul (fuel + 1) p = some none)
  ∧ (∀ ts : List Token, (∀ t ∈ ts, t.kind ≠ TokenKind.Eof) → parse_crate ts = none) := by
  constructor
  · intro fuel p s1 lhs h ht
    rw [parse_binary_mul, h]
    simp [peek_token, ht]
  · intro ts hno
    cases hc : parse_crate ts with
    | none => rfl
    | some e =>
      exfalso
      obtain ⟨q, hrun, heof⟩ := parse_crate_inv hc
      have hsub : q.toks <:+ ts := (parse_expr_shrinks hrun).1
      rw [at_eof_false_of_no_eof hsub hno] at heof
      exact Bool.false_ne_true heof

/-- Witness for C10: on the single-token stream 1 without an end marker,
the mul rule discards its parsed operand and fails, and the entry point
returns absence. -/
theorem C10_truncated_stream_never_succeeds_witness :
    parse_binary_mul 4 ⟨[tk (.NumLit 1)], 0⟩ = some none
  ∧ parse_crate [tk (.NumLit 1)] = none :=
  ⟨C10_truncated_stream_never_succeeds.1 3 ⟨[tk (.NumLit 1)], 0⟩ ⟨[], 1⟩
      (.mk (.NumLit 1) 1) rfl rfl,
    C10_truncated_stream_never_succeeds.2 [tk (.NumLit 1)] (by decide)⟩

end MiniRust
